import Mathlib

/-!
# Verification of the pepbut authoritative DNS server core

A shallow embedding of the pepbut sources (`src/name.rs`, `src/record.rs`,
`src/zone.rs`, `src/wire.rs`, `src/authority.rs`, `src/nsd.rs`) in Lean 4,
together with theorems settling the specification claims about zone lookup,
response encoding, the binary zone format, and wire-name decoding.

Modelling conventions:
* Rust bytes (`u8`) are `Nat` values; well-formedness predicates record the
  `< 256` range and the fixed widths of the Rust integer types where a proof
  needs them.
* `bytes::Bytes` labels are `List Nat`; `Name` is its leaf-first label list.
* `HashMap`/`HashSet` values with pepbut's case-insensitive `Name` keys are
  association lists looked up with the embedded case-insensitive equality;
  the list order stands in for the map's (arbitrary) iteration order.
* Fallible Rust code returns `Except`; `Buf::get_u8`-style panics on an
  exhausted cursor are modelled by a dedicated error value.
-/

deriving instance DecidableEq for Except

namespace Pepbut

/-- A DNS label: one byte-string component of a domain name (Rust `Bytes`). -/
abbrev Label := List Nat

/-- A fully-qualified domain name: leaf-first list of labels
(`pepbut::name::Name`). -/
abbrev DnsName := List Label

/-- `u8::to_ascii_lowercase`: ASCII-lowercase a single byte. -/
def toLowerByte (b : Nat) : Nat := if 65 ≤ b ∧ b ≤ 90 then b + 32 else b

/-- ASCII-lowercase every byte of a label (`[u8]::to_ascii_lowercase`). -/
def lowerLabel (l : Label) : Label := l.map toLowerByte

/-- `u8::is_ascii_alphabetic`. -/
def isAsciiAlpha (b : Nat) : Bool := (65 ≤ b && b ≤ 90) || (97 ≤ b && b ≤ 122)

/-- The per-byte comparison inside `name.rs::eq_lower`: equal bytes, or two
ASCII letters which agree after setting bit `0x20`. -/
def eqLowerByte (a b : Nat) : Bool :=
  a == b || ((a ||| 0x20) == (b ||| 0x20) && isAsciiAlpha a && isAsciiAlpha b)

/-- `name.rs::eq_lower`: ASCII-case-insensitive label equality. -/
def eqLower (a b : Label) : Bool :=
  a.length == b.length && (List.zip a b).all fun p => eqLowerByte p.1 p.2

/-- Case-insensitive name equality (`impl PartialEq for Name`, `name.rs`). -/
def nameEq (a b : DnsName) : Bool :=
  a.length == b.length && (List.zip a b).all fun p => eqLower p.1 p.2

/-- `Name::pop`: drop the leftmost label. -/
def namePop (n : DnsName) : DnsName := n.drop 1

/-- `std::net::IpAddr`: a v4 (4-octet) or v6 (16-octet) address, stored as its
raw octets. -/
inductive IpAddr
  | v4 (octets : List Nat)
  | v6 (octets : List Nat)
deriving DecidableEq

/-- `record::RData`: the closed sum of supported record data
(`record.rs`). In this revision of the source, `PTR` carries a
`std::net::IpAddr`, not a `Name`. -/
inductive RData
  | a (addr : List Nat)
  | aaaa (addr : List Nat)
  | cname (target : DnsName)
  | mx (preference : Nat) (exchange : DnsName)
  | ns (target : DnsName)
  | ptr (addr : IpAddr)
  | srv (priority weight port : Nat) (target : DnsName)
  | txt (data : List Nat)
deriving DecidableEq

/-- `RData::record_type` (`record.rs`). -/
def RData.recordType : RData → Nat
  | .a _ => 1
  | .aaaa _ => 28
  | .cname _ => 5
  | .mx _ _ => 15
  | .ns _ => 2
  | .ptr _ => 12
  | .srv _ _ _ _ => 33
  | .txt _ => 16

/-- `record::Record`: (owner name, TTL, rdata). -/
structure Record where
  name : DnsName
  ttl : Nat
  rdata : RData
deriving DecidableEq

/-- `Record::record_type`. -/
def Record.recordType (r : Record) : Nat := r.rdata.recordType

/-- Derived `PartialEq` on `RData`: structural, with the embedded
case-insensitive equality on any contained `Name`. -/
def rdataEq : RData → RData → Bool
  | .a x, .a y => x == y
  | .aaaa x, .aaaa y => x == y
  | .cname x, .cname y => nameEq x y
  | .mx p x, .mx q y => p == q && nameEq x y
  | .ns x, .ns y => nameEq x y
  | .ptr x, .ptr y => x == y
  | .srv a b c x, .srv d e f y => a == d && b == e && c == f && nameEq x y
  | .txt x, .txt y => x == y
  | _, _ => false

/-- Derived `PartialEq` on `Record` (name comparison case-insensitive). -/
def recordEq (r s : Record) : Bool :=
  nameEq r.name s.name && r.ttl == s.ttl && rdataEq r.rdata s.rdata

/-- The inner level of a zone's record map: record type → records of that
name and type (`HashMap<u16, Vec<Record>>`). -/
abbrev TypeMap := List (Nat × List Record)

/-- The outer level: owner name → inner map
(`HashMap<Name, HashMap<u16, Vec<Record>>>`). -/
abbrev RecMap := List (DnsName × TypeMap)

/-- `zone::Zone`: origin, serial and the two-level record map. -/
structure Zone where
  origin : DnsName
  serial : Nat
  records : RecMap
deriving DecidableEq

/-- `zone::SOARecord`: the synthetic SOA, materialized on demand. -/
structure SOARecord where
  origin : DnsName
  serial : Nat
deriving DecidableEq

/-- `Zone::soa_record` (`zone.rs` 118-123). -/
def Zone.soaRecord (z : Zone) : SOARecord := ⟨z.origin, z.serial⟩

/-- `self.records.get(name)`: first bucket whose key is case-insensitively
equal to `n`. -/
def recMapGet (m : RecMap) (n : DnsName) : Option TypeMap :=
  (m.find? fun p => nameEq p.1 n).map Prod.snd

/-- `h.get(&record_type)` on the inner map. -/
def typeMapGet (h : TypeMap) (t : Nat) : Option (List Record) :=
  (h.find? fun p => p.1 == t).map Prod.snd

/-- `zone::LookupResult` (`zone.rs` 246-276). -/
inductive LookupResult
  | records (v : List Record)
  | cname (c : Record) (found : List Record) (authorities : List Record)
  | cnameLookup (c : Record)
  | delegated (authorities : List Record) (glueRecords : List Record)
  | nameExists (soa : SOARecord)
  | noName (soa : SOARecord)
  | noZone
deriving DecidableEq

/-- `Zone::lookup` (`zone.rs` 84-95). -/
def Zone.lookup (z : Zone) (n : DnsName) (t : Nat) : LookupResult :=
  match recMapGet z.records n with
  | some h =>
    match typeMapGet h t with
    | some v => .records v
    | none =>
      match (typeMapGet h 5).map List.head? with
      | some (some c) => .cnameLookup c
      | _ => .nameExists z.soaRecord
  | none => .noName z.soaRecord

/-- `LookupResult::counts` (`zone.rs` 311-327): the values written to
ANCOUNT, NSCOUNT, ARCOUNT in that order. -/
def LookupResult.counts : LookupResult → List Nat
  | .records v => [v.length, 0, 0]
  | .cname _ found auths => [1 + found.length, auths.length, 0]
  | .cnameLookup _ => [1, 0, 0]
  | .delegated auths glue => [0, auths.length, glue.length]
  | .nameExists _ => [0, 0, 1]
  | .noName _ => [0, 0, 1]
  | .noZone => [0, 0, 0]

/-- `LookupResult::rcode` (`zone.rs` 299-309). -/
def LookupResult.rcode : LookupResult → Nat
  | .noName _ => 3
  | .noZone => 5
  | _ => 0

/-- `LookupResult::authoritative` (`zone.rs` 287-297). -/
def LookupResult.authoritative : LookupResult → Bool
  | .noZone => false
  | _ => true

/-- Whether a lookup outcome is the `Delegated` variant. -/
def LookupResult.isDelegated : LookupResult → Bool
  | .delegated _ _ => true
  | _ => false

/-- Inner half of `Zone::push` (`zone.rs` 54-61): append the record to the
bucket for its type, creating the bucket at the end if absent. -/
def typeMapPush (h : TypeMap) (t : Nat) (r : Record) : TypeMap :=
  match h with
  | [] => [(t, [r])]
  | (t', v) :: rest =>
    if t' == t then (t', v ++ [r]) :: rest
    else (t', v) :: typeMapPush rest t r

/-- Outer half of `Zone::push`: find (case-insensitively) the bucket for the
record's owner name, creating it at the end if absent. -/
def recMapPush (m : RecMap) (r : Record) : RecMap :=
  match m with
  | [] => [(r.name, [(r.recordType, [r])])]
  | (k, h) :: rest =>
    if nameEq k r.name then (k, typeMapPush h r.recordType r) :: rest
    else (k, h) :: recMapPush rest r

/-- `Zone::push`. -/
def Zone.push (z : Zone) (r : Record) : Zone :=
  { z with records := recMapPush z.records r }

/-- `Zone::with_records` / the read loop of `Zone::read_from`: push records
one by one into a fresh zone. -/
def Zone.withRecords (origin : DnsName) (serial : Nat) (rs : List Record) : Zone :=
  rs.foldl Zone.push ⟨origin, serial, []⟩

/-- `Zone::iter` flattened to a record list, in the map's iteration order. -/
def zoneFlatten (z : Zone) : List Record :=
  z.records.flatMap fun p => p.2.flatMap Prod.snd

/-- `Zone::len`. -/
def Zone.len (z : Zone) : Nat := (zoneFlatten z).length

/-- `nsd::Authority`: map from origin names to zones. -/
abbrev Authority := List (DnsName × Zone)

/-- `self.zones.get(name)` with the case-insensitive key equality. -/
def authGet (a : Authority) (n : DnsName) : Option Zone :=
  (a.find? fun p => nameEq p.1 n).map Prod.snd

/-- `HashMap` entry insertion: replace the value under an existing
(case-insensitively equal) key, else append a fresh entry. -/
def authInsert : Authority → DnsName → Zone → Authority
  | [], k, z => [(k, z)]
  | (k', z') :: rest, k, z =>
    if nameEq k' k then (k', z) :: rest else (k', z') :: authInsert rest k z

/-- `Authority::load_zone` (`authority.rs` 30-61, `nsd.rs` 59-88): the update
decision taken once phase 1 has produced the new zone's origin and serial.
The file I/O of `Zone::read_from_stage1/2` is abstracted away: `newZone` is
the zone the file parses to. Returns the updated map and whether the zone was
inserted or updated (`true`) or the load was ignored (`false`). -/
def loadZone (a : Authority) (newZone : Zone) : Authority × Bool :=
  match authGet a newZone.origin with
  | some current =>
    if current.serial < newZone.serial then (authInsert a newZone.origin newZone, true)
    else (a, false)
  | none => (authInsert a newZone.origin newZone, true)

/-- `Authority::find_zone` (`nsd.rs` 95-104): longest-suffix search, popping
leading labels until a held zone matches or the root is reached. -/
def findZone (a : Authority) : DnsName → Option Zone
  | [] => none
  | l :: rest =>
    match authGet a (l :: rest) with
    | some z => some z
    | none => findZone a rest

/-! ## Wire encoding (`wire.rs`, `name.rs`, `record.rs`, `zone.rs`) -/

/-- `BufMut::put_u16_be`: the two big-endian bytes of a `u16` value. -/
def be16 (n : Nat) : List Nat := [n / 256 % 256, n % 256]

/-- `BufMut::put_u32_be`: the four big-endian bytes of a `u32` value. -/
def be32 (n : Nat) : List Nat :=
  [n / 16777216 % 256, n / 65536 % 256, n / 256 % 256, n % 256]

/-- The eight big-endian bytes of a `u64` value. -/
def be64 (n : Nat) : List Nat := be32 (n / 4294967296) ++ be32 n

/-- `cast::Error`: a checked numeric cast failed. -/
inductive CastError
  | underflow
  | overflow
deriving DecidableEq

/-- `wire::ResponseBuffer`: the output bytes plus the message-scoped name
compression table (name → byte offset of its first emission). -/
structure ResponseBuffer where
  writer : List Nat
  names : List (DnsName × Nat)
deriving DecidableEq

/-- `names.get(&name)` on the compression table (case-insensitive keys). -/
def namesGet (ns : List (DnsName × Nat)) (n : DnsName) : Option Nat :=
  (ns.find? fun p => nameEq p.1 n).map Prod.snd

/-- Append a `u16` to the response (`u16::encode`). -/
def putU16 (n : Nat) (buf : ResponseBuffer) : ResponseBuffer :=
  { buf with writer := buf.writer ++ be16 n }

/-- Append a `u32` to the response (`u32::encode`). -/
def putU32 (n : Nat) (buf : ResponseBuffer) : ResponseBuffer :=
  { buf with writer := buf.writer ++ be32 n }

/-- `impl ProtocolEncode for Name` (`name.rs` 548-582): emit labels, replacing
an already-emitted suffix by a 2-byte compression pointer; record each newly
emitted suffix's offset. Errors mirror the `u16`/`u8` casts and the
`checked_add` on the pointer word. -/
def nameEncode : DnsName → ResponseBuffer → Except CastError ResponseBuffer
  | [], buf => .ok { buf with writer := buf.writer ++ [0] }
  | l :: rest, buf =>
    match namesGet buf.names (l :: rest) with
    | some pos =>
      if 49152 + pos ≤ 65535 then
        .ok { buf with writer := buf.writer ++ be16 (49152 + pos) }
      else .error .underflow
    | none =>
      if buf.writer.length ≤ 65535 then
        if l.length ≤ 255 then
          nameEncode rest
            { writer := buf.writer ++ [l.length] ++ l,
              names := buf.names ++ [(l :: rest, buf.writer.length)] }
        else .error .overflow
      else .error .overflow

/-- `HashSet<Name>` membership, case-insensitive. -/
def namesSetMem (s : List DnsName) (n : DnsName) : Bool := s.any fun m => nameEq m n

/-- `Name::encode_len` (`name.rs` 135-158): predicted encoded length of a name
given the set of names already in the compression table, returning the updated
set. -/
def nameEncodeLen : DnsName → List DnsName → Except CastError (Nat × List DnsName)
  | [], s => .ok (1, s)
  | l :: rest, s =>
    if namesSetMem s (l :: rest) then .ok (2, s)
    else if l.length ≤ 65535 then
      (nameEncodeLen rest (s ++ [l :: rest])).map fun p => (1 + l.length + p.1, p.2)
    else .error .overflow

/-- The name set underlying a buffer's compression table
(`ResponseBuffer::names`). -/
def bufNamesSet (buf : ResponseBuffer) : List DnsName := buf.names.map Prod.fst

/-- The ASCII decimal label for one IPv4 octet (the `HEX_DIGITS` /
`OCTET_DECIMAL_2` / `OCTET_DECIMAL_3` tables of `name.rs`). -/
def decimalLabel (n : Nat) : Label :=
  if n < 10 then [48 + n]
  else if n < 100 then [48 + n / 10, 48 + n % 10]
  else [48 + n / 100, 48 + n / 10 % 10, 48 + n % 10]

/-- One lowercase hex-digit label (`HEX_DIGITS` of `name.rs`). -/
def hexLabel (n : Nat) : Label := [if n < 10 then 48 + n else 87 + n]

/-- `impl From<Ipv4Addr> for Name`: `d.c.b.a.in-addr.arpa`. -/
def ipv4ToName (octets : List Nat) : DnsName :=
  octets.reverse.map decimalLabel ++
    [[105, 110, 45, 97, 100, 100, 114], [97, 114, 112, 97]]

/-- `impl From<Ipv6Addr> for Name`: 32 nibble labels (low nibble first, from
the last octet) then `ip6.arpa`. -/
def ipv6ToName (octets : List Nat) : DnsName :=
  octets.reverse.flatMap (fun o => [hexLabel (o % 16), hexLabel (o / 16)]) ++
    [[105, 112, 54], [97, 114, 112, 97]]

/-- `impl From<IpAddr> for Name`. -/
def ipAddrToName : IpAddr → DnsName
  | .v4 o => ipv4ToName o
  | .v6 o => ipv6ToName o

/-- `[T]::chunks(255)` on a byte string: consecutive chunks of at most 255
bytes; the empty string yields no chunks. -/
def chunks255 (s : List Nat) : List (List Nat) :=
  if s = [] then [] else s.take 255 :: chunks255 (s.drop 255)
termination_by s.length
decreasing_by
  simp only [List.length_drop]
  rename_i h
  have : s.length ≠ 0 := fun h0 => h (List.length_eq_zero.mp h0)
  omega

/-- The wire bytes of TXT rdata: each chunk preceded by its one-byte
length. -/
def txtWire (s : List Nat) : List Nat :=
  (chunks255 s).flatMap fun c => c.length :: c

/-- The TXT arm of `RData::encode` (`record.rs` 350-355): emit each chunk
with its `u8`-cast length prefix. -/
def txtEncodeChunks : List (List Nat) → ResponseBuffer → Except CastError ResponseBuffer
  | [], buf => .ok buf
  | c :: rest, buf =>
    if c.length ≤ 255 then
      txtEncodeChunks rest { buf with writer := buf.writer ++ [c.length] ++ c }
    else .error .overflow

/-- `impl ProtocolEncode for RData` (`record.rs` 325-359). -/
def rdataEncode (rd : RData) (buf : ResponseBuffer) : Except CastError ResponseBuffer :=
  match rd with
  | .a addr => .ok { buf with writer := buf.writer ++ addr }
  | .aaaa addr => .ok { buf with writer := buf.writer ++ addr }
  | .cname n => nameEncode n buf
  | .ns n => nameEncode n buf
  | .mx pref exch => nameEncode exch (putU16 pref buf)
  | .ptr addr => nameEncode (ipAddrToName addr) buf
  | .srv pr w pt tgt => nameEncode tgt (putU16 pt (putU16 w (putU16 pr buf)))
  | .txt s => txtEncodeChunks (chunks255 s) buf

/-- `RData::encode_len` (`record.rs` 181-194). -/
def rdataEncodeLen (rd : RData) (names : List DnsName) : Except CastError Nat :=
  match rd with
  | .a _ => .ok 4
  | .aaaa _ => .ok 16
  | .cname n => (nameEncodeLen n names).map Prod.fst
  | .ns n => (nameEncodeLen n names).map Prod.fst
  | .mx _ exch => (nameEncodeLen exch names).map fun p => 2 + p.1
  | .ptr addr => (nameEncodeLen (ipAddrToName addr) names).map Prod.fst
  | .srv _ _ _ tgt => (nameEncodeLen tgt names).map fun p => 6 + p.1
  | .txt s =>
    if s.length / 255 + min 1 (s.length % 255) + s.length ≤ 65535 then
      .ok (s.length / 255 + min 1 (s.length % 255) + s.length)
    else .error .overflow

/-- `impl ProtocolEncode for RecordTrait` (`record.rs` 33-42) applied to a
real `Record`: owner name, type, class IN, TTL, rdata length, rdata. -/
def recordEncode (r : Record) (buf : ResponseBuffer) : Except CastError ResponseBuffer := do
  let buf ← nameEncode r.name buf
  let buf := putU32 r.ttl (putU16 1 (putU16 r.recordType buf))
  let len ← rdataEncodeLen r.rdata (bufNamesSet buf)
  rdataEncode r.rdata (putU16 len buf)

/-- Encode a vector of records in order (the `encode_vec!` macro). -/
def recordsEncode : List Record → ResponseBuffer → Except CastError ResponseBuffer
  | [], buf => .ok buf
  | r :: rest, buf => do
    let buf ← recordEncode r buf
    recordsEncode rest buf

/-- MNAME of the synthetic SOA: `ns1.wob.zone` (`zone.rs` 202-204). -/
def soaMname : DnsName := [[110, 115, 49], [119, 111, 98], [122, 111, 110, 101]]

/-- RNAME of the synthetic SOA: `hostmistress.as64241.net`
(`zone.rs` 206-208). -/
def soaRname : DnsName :=
  [[104, 111, 115, 116, 109, 105, 115, 116, 114, 101, 115, 115],
   [97, 115, 54, 52, 50, 52, 49], [110, 101, 116]]

/-- `SOARecord::encode_rdata` (`zone.rs` 229-243): MNAME, RNAME, then SERIAL,
REFRESH=1000, RETRY=2400, EXPIRE=604800, MINIMUM=3600. -/
def soaEncodeRdata (soa : SOARecord) (buf : ResponseBuffer) :
    Except CastError ResponseBuffer := do
  let buf ← nameEncode soaMname buf
  let buf ← nameEncode soaRname buf
  .ok { buf with writer := buf.writer ++
          (be32 soa.serial ++ be32 1000 ++ be32 2400 ++ be32 604800 ++ be32 3600) }

/-- `SOARecord::encode_rdata_len` (`zone.rs` 224-227). -/
def soaEncodeRdataLen (names : List DnsName) : Except CastError Nat := do
  let m ← nameEncodeLen soaMname names
  let r ← nameEncodeLen soaRname m.2
  .ok (m.1 + r.1 + 20)

/-- `impl ProtocolEncode for RecordTrait` applied to the synthetic SOA
(owner = origin, type 6, class IN, ttl 3600). -/
def soaRecordEncode (soa : SOARecord) (buf : ResponseBuffer) :
    Except CastError ResponseBuffer := do
  let buf ← nameEncode soa.origin buf
  let buf := putU32 3600 (putU16 1 (putU16 6 buf))
  let len ← soaEncodeRdataLen (bufNamesSet buf)
  soaEncodeRdata soa (putU16 len buf)

/-- Section encoding of a lookup result (`zone.rs` 330-369, `wire.rs`
278-291): the records appended after the question, per variant. -/
def lookupResultEncode (lr : LookupResult) (buf : ResponseBuffer) :
    Except CastError ResponseBuffer :=
  match lr with
  | .records v => recordsEncode v buf
  | .cname c found auths => do
    let buf ← recordEncode c buf
    let buf ← recordsEncode found buf
    recordsEncode auths buf
  | .cnameLookup c => recordEncode c buf
  | .delegated auths glue => do
    let buf ← recordsEncode auths buf
    recordsEncode glue buf
  | .nameExists soa => soaRecordEncode soa buf
  | .noName soa => soaRecordEncode soa buf
  | .noZone => .ok buf

/-- `wire::QueryMessage`: id, queried name, queried record type. -/
structure QueryMessage where
  id : Nat
  name : DnsName
  recordType : Nat
deriving DecidableEq

/-- `wire::ResponseMessage`: the echoed query plus the lookup answer. -/
structure ResponseMessage where
  query : QueryMessage
  answer : LookupResult
deriving DecidableEq

/-- The `u16` casts applied to each of the three section counts. -/
def countsEncode : List Nat → ResponseBuffer → Except CastError ResponseBuffer
  | [], buf => .ok buf
  | c :: rest, buf =>
    if c ≤ 65535 then countsEncode rest (putU16 c buf) else .error .overflow

/-- `impl ProtocolEncode for ResponseMessage` (`wire.rs` 238-295): header
(id, flags with QR=1 and AA per `authoritative`, rcode, QDCOUNT=1, the three
counts), the echoed question, then the per-variant sections. -/
def responseEncode (m : ResponseMessage) (buf : ResponseBuffer) :
    Except CastError ResponseBuffer := do
  let buf := putU16 m.query.id buf
  let buf := { buf with writer :=
                 buf.writer ++ [(if m.answer.authoritative then 132 else 128), m.answer.rcode] }
  let buf := putU16 1 buf
  let buf ← countsEncode m.answer.counts buf
  let buf ← nameEncode m.query.name buf
  let buf := putU16 1 (putU16 m.query.recordType buf)
  lookupResultEncode m.answer buf

/-! ## Wire decoding (`name.rs` 516-546, `wire.rs` 130-221, `nsd.rs`) -/

/-- Decoding failures. `readPastEnd` models the panic of `Buf::get_u8` /
`Buf::advance` / `Bytes::slice` on an exhausted cursor; `fuel` is an artifact
of the embedding's explicit recursion bound and is unreachable for the fuel
supplied by `nameDecode`; the rest mirror `wire::ProtocolDecodeError`. -/
inductive DecodeError
  | readPastEnd
  | fuel
  | pointerLimit
  | noQuestions
  | unacceptableClass
  | unacceptableHeader
deriving DecidableEq

/-- `impl ProtocolDecode for Name` (`name.rs` 516-546), cursor-threaded: the
length octet 0 terminates; an octet above 63 is taken as the high byte of a
14-bit compression pointer (its top two bits are masked off), following at
most 20 pointer hops; otherwise it is a literal label length. Errors carry
the cursor position at the failure. Returns the name and the final cursor
position (restored to just after the first pointer if any was followed). -/
def nameDecodeAux (msg : List Nat) :
    Nat → Nat → Nat → Nat → DnsName → Except (DecodeError × Nat) (DnsName × Nat)
  | 0, pos, _, _, _ => .error (.fuel, pos)
  | fuel + 1, pos, origPos, jumps, acc =>
    match msg.get? pos with
    | none => .error (.readPastEnd, pos)
    | some len =>
      if len = 0 then
        .ok (acc, if 0 < jumps then origPos else pos + 1)
      else if 63 < len then
        match msg.get? (pos + 1) with
        | none => .error (.readPastEnd, pos + 1)
        | some lo =>
          if jumps = 20 then .error (.pointerLimit, pos + 2)
          else
            nameDecodeAux msg fuel (((len &&& 63) <<< 8) + lo)
              (if jumps = 0 then pos + 2 else origPos) (jumps + 1) acc
      else
        if pos + 1 + len ≤ msg.length then
          nameDecodeAux msg fuel (pos + 1 + len) origPos jumps
            (acc ++ [(msg.drop (pos + 1)).take len])
        else .error (.readPastEnd, pos + 1)

/-- `Name::decode` from a given cursor position, with ample fuel. -/
def nameDecode (msg : List Nat) (pos : Nat) : Except (DecodeError × Nat) (DnsName × Nat) :=
  nameDecodeAux msg (22 * (msg.length + 2)) pos 0 0 []

/-- The spec's reference resolver, against which the 20-hop limit of
`nameDecodeAux` is judged: byte-for-byte the same walk, but with no
pointer-hop limit. Alongside the decode result it returns, in order, the
cursor position just past each compression pointer followed — so "the name
requires more than 20 pointer hops to resolve" is this hop list having more
than 20 entries, and entry 20 is the cursor at which the 21st hop is
taken. -/
def nameResolveAux (msg : List Nat) :
    Nat → Nat → Nat → Nat → DnsName →
      Except (DecodeError × Nat) (DnsName × Nat) × List Nat
  | 0, pos, _, _, _ => (.error (.fuel, pos), [])
  | fuel + 1, pos, origPos, jumps, acc =>
    match msg.get? pos with
    | none => (.error (.readPastEnd, pos), [])
    | some len =>
      if len = 0 then
        (.ok (acc, if 0 < jumps then origPos else pos + 1), [])
      else if 63 < len then
        match msg.get? (pos + 1) with
        | none => (.error (.readPastEnd, pos + 1), [])
        | some lo =>
          let r := nameResolveAux msg fuel (((len &&& 63) <<< 8) + lo)
            (if jumps = 0 then pos + 2 else origPos) (jumps + 1) acc
          (r.1, (pos + 2) :: r.2)
      else
        if pos + 1 + len ≤ msg.length then
          nameResolveAux msg fuel (pos + 1 + len) origPos jumps
            (acc ++ [(msg.drop (pos + 1)).take len])
        else (.error (.readPastEnd, pos + 1), [])

/-- The reference resolution of the name at `pos`, with the fuel of
`nameDecode`. -/
def nameResolve (msg : List Nat) (pos : Nat) :
    Except (DecodeError × Nat) (DnsName × Nat) × List Nat :=
  nameResolveAux msg (22 * (msg.length + 2)) pos 0 0 []

/-- `Buf::get_u8` on a cursor: the byte at `pos` and the advanced position;
out-of-bounds models the panic. -/
def getU8 (msg : List Nat) (pos : Nat) : Except (DecodeError × Nat) (Nat × Nat) :=
  match msg.get? pos with
  | some b => .ok (b, pos + 1)
  | none => .error (.readPastEnd, pos)

/-- `Buf::get_u16_be` on a cursor. -/
def getU16 (msg : List Nat) (pos : Nat) : Except (DecodeError × Nat) (Nat × Nat) := do
  let hi ← getU8 msg pos
  let lo ← getU8 msg hi.2
  .ok (hi.1 * 256 + lo.1, lo.2)

/-- `QueryMessage::decode` (`wire.rs` 130-221), threaded through the caller's
cursor as `nsd.rs::process_message` requires: read the id; reject a header
whose third byte has any of QR, OPCODE, TC set; require QDCOUNT ≥ 1; skip to
the question; decode QNAME, QTYPE; require QCLASS = 1. Errors carry the
cursor position reached when the failure occurred. -/
def queryDecode (msg : List Nat) : Except (DecodeError × Nat) (QueryMessage × Nat) := do
  let idP ← getU16 msg 0
  let flags ← getU8 msg idP.2
  if flags.1 &&& 250 ≠ 0 then .error (.unacceptableHeader, flags.2)
  else do
    let qd ← getU16 msg (flags.2 + 1)
    if qd.1 < 1 then .error (.noQuestions, qd.2)
    else do
      let nameP ← nameDecode msg (qd.2 + 6)
      let qtype ← getU16 msg nameP.2
      let qclass ← getU16 msg qtype.2
      if qclass.1 ≠ 1 then .error (.unacceptableClass, qclass.2)
      else .ok (⟨idP.1, nameP.1, qtype.1⟩, qclass.2)

/-- `nsd.rs::encode_err` (33-44): a header-only reply with the given id,
flags byte `0b1000_0000` (QR=1, Opcode=0, AA=0, TC=0, RD=0), the given
RCODE, and all four counts zero. -/
def encodeErr (id rcode : Nat) : List Nat :=
  be16 id ++ [128, rcode] ++ [0, 0, 0, 0, 0, 0, 0, 0]

/-- `Authority::process_message` (`nsd.rs` 106-126): decode the query; on a
decode error, echo as id the two bytes at the cursor position where decoding
stopped in a FormErr (RCODE 1) reply; otherwise answer from the longest-
suffix zone (or `NoZone`), encode the response, and on an encode error reply
ServFail (RCODE 2). `none` models a panic (a read past the end of the
buffer, which in Rust aborts the task rather than producing a reply). -/
def processMessage (auth : Authority) (msg : List Nat) : Option (List Nat) :=
  match queryDecode msg with
  | .error (e, pos) =>
    match e with
    | .readPastEnd => none
    | .fuel => none
    | _ =>
      match getU16 msg pos with
      | .ok echo => some (encodeErr echo.1 1)
      | .error _ => none
  | .ok (q, _) =>
    let lr := match findZone auth q.name with
      | some z => z.lookup q.name q.recordType
      | none => LookupResult.noZone
    match responseEncode ⟨q, lr⟩ ⟨[], []⟩ with
    | .ok buf => some buf.writer
    | .error _ => some (encodeErr q.id 2)

/-! ## Binary zone format (`zone.rs` 129-192, `record.rs` 88-116 and 197-323,
`name.rs` 476-514)

The `rmp` MessagePack primitives are embedded for the marker subset the zone
writer emits (positive fixint / uint8-64, fixarray / array16 / array32,
fixstr / str8-32, bin8-32, and the `u64` marker): the readers below accept
exactly the markers `rmp`'s corresponding readers accept for these families,
except that the signed-integer markers (which the writer never produces) are
rejected as a type mismatch. -/

/-- `ZoneReadError` and the `bail!` failures of zone reading, plus `eof` for
missing bytes (an `io::Error` in Rust) and `seekError` for a seek before the
start of the file. -/
inductive ZoneReadError
  | eof
  | typeMismatch
  | outOfRange
  | arrayLength
  | labelIndexOutOfRange
  | labelTooLong
  | unsupportedRecordType
  | seekError
deriving DecidableEq

/-- `ZoneWriteError`: the only failure the embedded writer can hit is a
numeric cast. -/
inductive ZoneWriteError
  | cast
deriving DecidableEq

/-- `rmp::encode::write_uint`: minimal unsigned encoding (for `u64`
values). -/
def writeUint (n : Nat) : List Nat :=
  if n < 128 then [n]
  else if n < 256 then [204, n]
  else if n < 65536 then 205 :: be16 n
  else if n < 4294967296 then 206 :: be32 n
  else 207 :: be64 n

/-- `rmp::decode::read_int` restricted to the unsigned markers. -/
def readUint : List Nat → Except ZoneReadError (Nat × List Nat)
  | [] => .error .eof
  | m :: rest =>
    if m < 128 then .ok (m, rest)
    else if m = 204 then
      match rest with
      | b :: r => .ok (b, r)
      | [] => .error .eof
    else if m = 205 then
      match rest with
      | b1 :: b0 :: r => .ok (b1 * 256 + b0, r)
      | _ => .error .eof
    else if m = 206 then
      match rest with
      | b3 :: b2 :: b1 :: b0 :: r => .ok (((b3 * 256 + b2) * 256 + b1) * 256 + b0, r)
      | _ => .error .eof
    else if m = 207 then
      match rest with
      | b7 :: b6 :: b5 :: b4 :: b3 :: b2 :: b1 :: b0 :: r =>
        .ok (((((((b7 * 256 + b6) * 256 + b5) * 256 + b4) * 256 + b3) * 256 + b2) * 256
          + b1) * 256 + b0, r)
      | _ => .error .eof
    else .error .typeMismatch

/-- `rmp::decode::read_int::<uN>`: read an unsigned value and range-check it
(`NumValueReadError::OutOfRange`). -/
def readUintLt (bound : Nat) (s : List Nat) : Except ZoneReadError (Nat × List Nat) := do
  let p ← readUint s
  if p.1 < bound then .ok p else .error .outOfRange

/-- `rmp::encode::write_array_len`. -/
def writeArrayLen (n : Nat) : List Nat :=
  if n < 16 then [144 + n]
  else if n < 65536 then 220 :: be16 n
  else 221 :: be32 n

/-- `rmp::decode::read_array_len`. -/
def readArrayLen : List Nat → Except ZoneReadError (Nat × List Nat)
  | [] => .error .eof
  | m :: rest =>
    if 144 ≤ m ∧ m ≤ 159 then .ok (m - 144, rest)
    else if m = 220 then
      match rest with
      | b1 :: b0 :: r => .ok (b1 * 256 + b0, r)
      | _ => .error .eof
    else if m = 221 then
      match rest with
      | b3 :: b2 :: b1 :: b0 :: r => .ok (((b3 * 256 + b2) * 256 + b1) * 256 + b0, r)
      | _ => .error .eof
    else .error .typeMismatch

/-- `rmp::encode::write_str_len`. -/
def writeStrLen (n : Nat) : List Nat :=
  if n < 32 then [160 + n]
  else if n < 256 then [217, n]
  else if n < 65536 then 218 :: be16 n
  else 219 :: be32 n

/-- `rmp::decode::read_str_len`. -/
def readStrLen : List Nat → Except ZoneReadError (Nat × List Nat)
  | [] => .error .eof
  | m :: rest =>
    if 160 ≤ m ∧ m ≤ 191 then .ok (m - 160, rest)
    else if m = 217 then
      match rest with
      | b :: r => .ok (b, r)
      | [] => .error .eof
    else if m = 218 then
      match rest with
      | b1 :: b0 :: r => .ok (b1 * 256 + b0, r)
      | _ => .error .eof
    else if m = 219 then
      match rest with
      | b3 :: b2 :: b1 :: b0 :: r => .ok (((b3 * 256 + b2) * 256 + b1) * 256 + b0, r)
      | _ => .error .eof
    else .error .typeMismatch

/-- `rmp::encode::write_bin_len`. -/
def writeBinLen (n : Nat) : List Nat :=
  if n < 256 then [196, n]
  else if n < 65536 then 197 :: be16 n
  else 198 :: be32 n

/-- `rmp::decode::read_bin_len`. -/
def readBinLen : List Nat → Except ZoneReadError (Nat × List Nat)
  | [] => .error .eof
  | m :: rest =>
    if m = 196 then
      match rest with
      | b :: r => .ok (b, r)
      | [] => .error .eof
    else if m = 197 then
      match rest with
      | b1 :: b0 :: r => .ok (b1 * 256 + b0, r)
      | _ => .error .eof
    else if m = 198 then
      match rest with
      | b3 :: b2 :: b1 :: b0 :: r => .ok (((b3 * 256 + b2) * 256 + b1) * 256 + b0, r)
      | _ => .error .eof
    else .error .typeMismatch

/-- `rmp::encode::write_u64`: always the `u64` marker plus eight bytes. -/
def writeU64 (n : Nat) : List Nat := 207 :: be64 n

/-- `rmp::decode::read_u64`: requires the `u64` marker. -/
def readU64 : List Nat → Except ZoneReadError (Nat × List Nat)
  | [] => .error .eof
  | m :: rest =>
    if m = 207 then
      match rest with
      | b7 :: b6 :: b5 :: b4 :: b3 :: b2 :: b1 :: b0 :: r =>
        .ok (((((((b7 * 256 + b6) * 256 + b5) * 256 + b4) * 256 + b3) * 256 + b2) * 256
          + b1) * 256 + b0, r)
      | _ => .error .eof
    else .error .typeMismatch

/-- The `read_exact!` macro: take exactly `n` bytes. -/
def readExact (n : Nat) (s : List Nat) : Except ZoneReadError (List Nat × List Nat) :=
  if n ≤ s.length then .ok (s.take n, s.drop n) else .error .eof

/-- The loop body of `Name::to_msgpack` (`name.rs` 493-513): encode each
label as its index into the file-scoped pool (`position` uses exact byte
equality), appending missing labels to the pool. -/
def nameLabelsToMsgpack : DnsName → List Label → List Nat × List Label
  | [], pool => ([], pool)
  | l :: rest, pool =>
    match pool.findIdx? (fun x => x == l) with
    | some i =>
      let p := nameLabelsToMsgpack rest pool
      (writeUint i ++ p.1, p.2)
    | none =>
      let p := nameLabelsToMsgpack rest (pool ++ [l])
      (writeUint pool.length ++ p.1, p.2)

/-- `Name::to_msgpack`: the label-count header (cast to `u32`) then the
index list. -/
def nameToMsgpack (n : DnsName) (pool : List Label) :
    Except ZoneWriteError (List Nat × List Label) :=
  if n.length < 4294967296 then
    .ok (writeArrayLen n.length ++ (nameLabelsToMsgpack n pool).1,
      (nameLabelsToMsgpack n pool).2)
  else .error .cast

/-- The loop body of `Name::from_msgpack` (`name.rs` 477-491): read `k` label
indices and resolve each against the pool. -/
def readNameLabels (labels : List Label) : Nat → List Nat → Except ZoneReadError (DnsName × List Nat)
  | 0, s => .ok ([], s)
  | k + 1, s => do
    let i ← readUint s
    match labels.get? i.1 with
    | none => .error .labelIndexOutOfRange
    | some l => (readNameLabels labels k i.2).map fun p => (l :: p.1, p.2)

/-- `Name::from_msgpack`. -/
def nameFromMsgpack (labels : List Label) (s : List Nat) :
    Except ZoneReadError (DnsName × List Nat) := do
  let n ← readArrayLen s
  readNameLabels labels n.1 n.2

/-- `RData::to_msgpack` (`record.rs` 278-323): the numeric record type, then
the variant payload. `A`, `AAAA` and `PTR` carry raw 4- or 16-byte binary
blobs; `NS`, `CNAME` carry a pool-indexed name; `MX`, `SRV` nest their
fields; `TXT` is a single string. -/
def rdataToMsgpack (rd : RData) (pool : List Label) :
    Except ZoneWriteError (List Nat × List Label) :=
  match rd with
  | .a o => .ok (writeUint 1 ++ writeBinLen 4 ++ o, pool)
  | .aaaa o => .ok (writeUint 28 ++ writeBinLen 16 ++ o, pool)
  | .cname nm => (nameToMsgpack nm pool).map fun p => (writeUint 5 ++ p.1, p.2)
  | .mx pref exch =>
    (nameToMsgpack exch pool).map fun p =>
      (writeUint 15 ++ writeArrayLen 2 ++ writeUint pref ++ p.1, p.2)
  | .ns nm => (nameToMsgpack nm pool).map fun p => (writeUint 2 ++ p.1, p.2)
  | .ptr (.v4 o) => .ok (writeUint 12 ++ writeBinLen 4 ++ o, pool)
  | .ptr (.v6 o) => .ok (writeUint 12 ++ writeBinLen 16 ++ o, pool)
  | .srv pr w pt tgt =>
    (nameToMsgpack tgt pool).map fun p =>
      (writeUint 33 ++ writeArrayLen 4 ++ writeUint pr ++ writeUint w ++ writeUint pt ++ p.1,
        p.2)
  | .txt d =>
    if d.length < 4294967296 then .ok (writeUint 16 ++ writeStrLen d.length ++ d, pool)
    else .error .cast

/-- `RData::from_msgpack` (`record.rs` 197-276). -/
def rdataFromMsgpack (labels : List Label) (s : List Nat) :
    Except ZoneReadError (RData × List Nat) := do
  let t ← readUint s
  if t.1 = 1 then do
    let bl ← readBinLen t.2
    if bl.1 = 4 then (readExact 4 bl.2).map fun p => (.a p.1, p.2)
    else .error .arrayLength
  else if t.1 = 28 then do
    let bl ← readBinLen t.2
    if bl.1 = 16 then (readExact 16 bl.2).map fun p => (.aaaa p.1, p.2)
    else .error .arrayLength
  else if t.1 = 5 then (nameFromMsgpack labels t.2).map fun p => (.cname p.1, p.2)
  else if t.1 = 15 then do
    let al ← readArrayLen t.2
    if al.1 = 2 then do
      let pref ← readUintLt 65536 al.2
      (nameFromMsgpack labels pref.2).map fun p => (.mx pref.1 p.1, p.2)
    else .error .arrayLength
  else if t.1 = 2 then (nameFromMsgpack labels t.2).map fun p => (.ns p.1, p.2)
  else if t.1 = 12 then do
    let bl ← readBinLen t.2
    if bl.1 = 4 then (readExact 4 bl.2).map fun p => (.ptr (.v4 p.1), p.2)
    else if bl.1 = 16 then (readExact 16 bl.2).map fun p => (.ptr (.v6 p.1), p.2)
    else .error .arrayLength
  else if t.1 = 33 then do
    let al ← readArrayLen t.2
    if al.1 = 4 then do
      let pr ← readUintLt 65536 al.2
      let w ← readUintLt 65536 pr.2
      let pt ← readUintLt 65536 w.2
      (nameFromMsgpack labels pt.2).map fun p => (.srv pr.1 w.1 pt.1 p.1, p.2)
    else .error .arrayLength
  else if t.1 = 16 then do
    let sl ← readStrLen t.2
    (readExact sl.1 sl.2).map fun p => (.txt p.1, p.2)
  else .error .unsupportedRecordType

/-- `Record::to_msgpack` (`record.rs` 102-116): a 4-element array of name,
ttl, rdata type, rdata payload. -/
def recordToMsgpack (r : Record) (pool : List Label) :
    Except ZoneWriteError (List Nat × List Label) := do
  let nm ← nameToMsgpack r.name pool
  let rd ← rdataToMsgpack r.rdata nm.2
  .ok (writeArrayLen 4 ++ nm.1 ++ writeUint r.ttl ++ rd.1, rd.2)

/-- `Record::from_msgpack` (`record.rs` 88-100). -/
def recordFromMsgpack (labels : List Label) (s : List Nat) :
    Except ZoneReadError (Record × List Nat) := do
  let al ← readArrayLen s
  if al.1 = 4 then do
    let nm ← nameFromMsgpack labels al.2
    let ttl ← readUintLt 4294967296 nm.2
    let rd ← rdataFromMsgpack labels ttl.2
    .ok (⟨nm.1, ttl.1, rd.1⟩, rd.2)
  else .error .arrayLength

/-- The record loop of `Zone::write_to`, threading the label pool. -/
def recordsToMsgpack : List Record → List Label → Except ZoneWriteError (List Nat × List Label)
  | [], pool => .ok ([], pool)
  | r :: rs, pool => do
    let a ← recordToMsgpack r pool
    let b ← recordsToMsgpack rs a.2
    .ok (a.1 ++ b.1, b.2)

/-- The record loop of `Zone::read_from`: read `k` records. -/
def readRecordsAux (labels : List Label) : Nat → List Nat → Except ZoneReadError (List Record × List Nat)
  | 0, s => .ok ([], s)
  | k + 1, s => do
    let r ← recordFromMsgpack labels s
    (readRecordsAux labels k r.2).map fun p => (r.1 :: p.1, p.2)

/-- The serialized label pool: array header plus length-prefixed labels. -/
def poolBytes (pool : List Label) : List Nat :=
  writeArrayLen pool.length ++ pool.flatMap fun l => writeStrLen l.length ++ l

/-- The byte count `Zone::write_to` derives from the pool array marker
(FixArray 1, Array16 3, Array32 5). -/
def arrayHeaderLen (n : Nat) : Nat :=
  if n < 16 then 1 else if n < 65536 then 3 else 5

/-- The `bytes_written` accounting of `Zone::write_to` (176-187): the pool
header size plus, per label, its length and a 1- or 2-byte string header. -/
def poolAccounting (pool : List Label) : Nat :=
  arrayHeaderLen pool.length +
    (pool.map fun l => l.length + if l.length < 32 then 1 else 2).sum

/-- `Zone::write_to` (`zone.rs` 163-192): the 5-element array header, origin,
serial, record array, label pool, and the trailing fixed-width back-offset
(pool section length + 9). The `u32` casts of the source are the explicit
range checks. -/
def Zone.writeTo (z : Zone) : Except ZoneWriteError (List Nat) := do
  let ob ← nameToMsgpack z.origin []
  if (zoneFlatten z).length < 4294967296 then do
    let rb ← recordsToMsgpack (zoneFlatten z) ob.2
    if rb.2.length < 4294967296 ∧ rb.2.all (fun l => l.length < 4294967296) then
      .ok (writeArrayLen 5 ++ ob.1 ++ writeUint z.serial ++
        writeArrayLen (zoneFlatten z).length ++ rb.1 ++ poolBytes rb.2 ++
        writeU64 (poolAccounting rb.2 + 9))
    else .error .cast
  else .error .cast

/-- The pool-reading loop of `Zone::read_from` (140-145): read each label's
length-prefixed bytes, rejecting labels of 64 bytes or more, and lowercase
them. -/
def readPoolLabels : Nat → List Nat → Except ZoneReadError (List Label × List Nat)
  | 0, s => .ok ([], s)
  | k + 1, s => do
    let len ← readStrLen s
    let bytes ← readExact len.1 len.2
    if bytes.1.length < 64 then
      (readPoolLabels k bytes.2).map fun p => (lowerLabel bytes.1 :: p.1, p.2)
    else .error .labelTooLong

/-- `Zone::read_from` (`zone.rs` 129-160): check the 5-element array header,
seek to the end for the back-offset, seek back to the pool and read it, then
rewind past the array header and read origin, serial and records, pushing
each record into a fresh zone. Seeks are `List.drop` at the computed
positions; a seek before the start of the file is an error. -/
def Zone.readFrom (bytes : List Nat) : Except ZoneReadError Zone := do
  let a5 ← readArrayLen bytes
  if a5.1 = 5 then
    if 9 ≤ bytes.length then do
      let off ← readU64 (bytes.drop (bytes.length - 9))
      if off.1 ≤ bytes.length ∧ off.1 < 9223372036854775808 then do
        let pl ← readArrayLen (bytes.drop (bytes.length - off.1))
        let labels ← readPoolLabels pl.1 pl.2
        let og ← nameFromMsgpack labels.1 (bytes.drop 1)
        let serial ← readUintLt 4294967296 og.2
        let rl ← readArrayLen serial.2
        let rs ← readRecordsAux labels.1 rl.1 rl.2
        .ok (Zone.withRecords og.1 serial.1 rs.1)
      else .error .seekError
    else .error .seekError
  else .error .arrayLength

/-! ## Well-formedness and equivalence -/

/-- A well-formed label: a Rust byte string of at most 63 bytes. -/
def labelWF (l : Label) : Bool := l.length ≤ 63 && l.all (· < 256)

/-- A well-formed name: all labels well-formed. -/
def nameWF (n : DnsName) : Bool := n.all labelWF

/-- Well-formed rdata: address blobs have the width of their Rust types and
byte-range contents, `u16` fields are in range, contained names are
well-formed. -/
def rdataWF : RData → Bool
  | .a o => o.length == 4 && o.all (· < 256)
  | .aaaa o => o.length == 16 && o.all (· < 256)
  | .cname nm => nameWF nm
  | .mx pref exch => pref < 65536 && nameWF exch
  | .ns nm => nameWF nm
  | .ptr (.v4 o) => o.length == 4 && o.all (· < 256)
  | .ptr (.v6 o) => o.length == 16 && o.all (· < 256)
  | .srv pr w pt tgt => pr < 65536 && w < 65536 && pt < 65536 && nameWF tgt
  | .txt d => d.all (· < 256)

/-- A well-formed record: name well-formed, TTL a `u32`, rdata
well-formed. -/
def recordWF (r : Record) : Bool :=
  nameWF r.name && r.ttl < 4294967296 && rdataWF r.rdata

/-- The `HashMap` structural invariants of a zone's inner map under key `k`:
type keys distinct, buckets nonempty, every record well-formed with owner
equal (case-insensitively) to `k` and type equal to its bucket's key. -/
def typeMapWF (k : DnsName) : TypeMap → Bool
  | [] => true
  | (t, v) :: rest =>
    !v.isEmpty && v.all (fun r => recordWF r && nameEq r.name k && r.recordType == t) &&
      rest.all (fun p => p.1 != t) && typeMapWF k rest

/-- The `HashMap` structural invariants of the outer record map: keys
pairwise distinct (case-insensitively), buckets nonempty and inner maps
well-formed. -/
def recMapWF : RecMap → Bool
  | [] => true
  | (k, h) :: rest =>
    nameWF k && !h.isEmpty && typeMapWF k h &&
      rest.all (fun p => !nameEq p.1 k) && recMapWF rest

/-- A well-formed zone value: a zone as Rust can represent it. -/
def zoneWF (z : Zone) : Bool :=
  nameWF z.origin && z.serial < 4294967296 && recMapWF z.records

/-- Pointwise record-list equality under the case-insensitive record
equality. -/
def listRecordEq (a b : List Record) : Bool :=
  a.length == b.length && (List.zip a b).all fun p => recordEq p.1 p.2

/-- Pointwise inner-map equivalence: same type keys in the same bucket
order, equal record vectors. -/
def typeMapEquiv (a b : TypeMap) : Bool :=
  a.length == b.length &&
    (List.zip a b).all fun p => p.1.1 == p.2.1 && listRecordEq p.1.2 p.2.2

/-- Pointwise outer-map equivalence: case-insensitively equal keys in the
same bucket order, equivalent inner maps. -/
def recMapEquiv (a b : RecMap) : Bool :=
  a.length == b.length &&
    (List.zip a b).all fun p => nameEq p.1.1 p.2.1 && typeMapEquiv p.1.2 p.2.2

/-- Zone equality in the sense of the derived `PartialEq for Zone`:
case-insensitively equal origins, equal serials, and the same records. -/
def zoneEquiv (a b : Zone) : Bool :=
  nameEq a.origin b.origin && a.serial == b.serial && recMapEquiv a.records b.records

/-- Lowercasing a name label-wise, as zone reading does via the pool. -/
def lowerName (n : DnsName) : DnsName := n.map lowerLabel

/-- The effect of a zone write/read round trip on rdata: contained names come
back lowercased, everything else is unchanged. -/
def lowerRData : RData → RData
  | .a o => .a o
  | .aaaa o => .aaaa o
  | .cname nm => .cname (lowerName nm)
  | .mx pref exch => .mx pref (lowerName exch)
  | .ns nm => .ns (lowerName nm)
  | .ptr addr => .ptr addr
  | .srv pr w pt tgt => .srv pr w pt (lowerName tgt)
  | .txt d => .txt d

/-- The effect of a zone write/read round trip on a record. -/
def lowerRecord (r : Record) : Record := ⟨lowerName r.name, r.ttl, lowerRData r.rdata⟩

/-- `P` extends `Q` on the right: the pool-growth order of the label pool. -/
def poolLe (p q : List Label) : Prop := ∃ t, q = p ++ t

/-! ## Concrete test vectors -/

/-- Byte `i` of the `n`-hop pointer-chain message: `n` two-byte compression
pointers at offsets `0, 2, …, 2(n-1)`, the `k`-th pointing at offset
`2(k+1)`, followed at offset `2n` by the one-byte label `a` and the root
terminator. Resolving the name at offset 0 takes exactly `n` pointer
hops. -/
def chainByte (n i : Nat) : Nat :=
  if i < 2 * n then
    (if i % 2 = 0 then 192 + 2 * (i / 2 + 1) / 256 else 2 * (i / 2 + 1) % 256)
  else if i = 2 * n then 1
  else if i = 2 * n + 1 then 97
  else 0

/-- The `n`-hop pointer-chain message, of length `2n + 3`: the pointer cells
followed by the one-byte label `a` and the root terminator. -/
def chain (n : Nat) : List Nat :=
  (List.ofFn fun i : Fin (2 * n) => chainByte n i) ++ [1, 97, 0]

/-- The name `example.invalid`. -/
def exampleInvalid : DnsName :=
  [[101, 120, 97, 109, 112, 108, 101], [105, 110, 118, 97, 108, 105, 100]]

/-- The name `www.example.invalid`. -/
def wwwExampleInvalid : DnsName := [119, 119, 119] :: exampleInvalid

/-- The name `sub.example.invalid`. -/
def subExampleInvalid : DnsName := [115, 117, 98] :: exampleInvalid

/-- The name `www.sub.example.invalid`. -/
def wwwSubExampleInvalid : DnsName := [119, 119, 119] :: subExampleInvalid

/-- The name `ns1.sub.example.invalid`. -/
def ns1SubExampleInvalid : DnsName := [110, 115, 49] :: subExampleInvalid

/-- A zone for `example.invalid` holding NS records at the non-origin name
`sub.example.invalid` — a delegation of the `sub` subtree. -/
def delegZone : Zone :=
  ⟨exampleInvalid, 1234567890,
    [(subExampleInvalid, [(2, [⟨subExampleInvalid, 300, .ns ns1SubExampleInvalid⟩])])]⟩

/-- An `example.invalid` zone with serial 5 and no records. -/
def zoneSerialFive : Zone := ⟨exampleInvalid, 5, []⟩

/-- A different `example.invalid` zone, also with serial 5 (one TXT
record). -/
def zoneSerialFiveTxt : Zone :=
  ⟨exampleInvalid, 5, [(exampleInvalid, [(16, [⟨exampleInvalid, 300, .txt [104, 105]⟩])])]⟩

/-- The query `www.example.invalid MX`, id `0x862a`. -/
def c2Query : QueryMessage := ⟨34346, wwwExampleInvalid, 15⟩

/-- The synthetic SOA of the `example.invalid` zone, serial 1234567890. -/
def c2Soa : SOARecord := ⟨exampleInvalid, 1234567890⟩

/-- The encoded `NameExists` response for `c2Query`. -/
def c2Buf : ResponseBuffer :=
  match responseEncode ⟨c2Query, .nameExists c2Soa⟩ ⟨[], []⟩ with
  | .ok b => b
  | .error _ => ⟨[], []⟩

/-- A small zone used to exercise the binary round trip: NS at the origin
and an A record at `www`, sharing the origin's labels through the pool. -/
def rtZone : Zone :=
  ⟨exampleInvalid, 1234567890,
    [(exampleInvalid, [(2, [⟨exampleInvalid, 300, .ns ([110, 115, 49] :: exampleInvalid)⟩])]),
     (wwwExampleInvalid, [(1, [⟨wwwExampleInvalid, 300, .a [192, 0, 2, 1]⟩])])]⟩

/-- The bytes `rtZone.writeTo` produces. -/
def rtZoneBytes : List Nat :=
  match rtZone.writeTo with
  | .ok b => b
  | .error _ => []

/-! # Theorems

## Case-insensitive equality is an equivalence -/

theorem eqLowerByte_refl (a : Nat) : eqLowerByte a a = true := by
  simp [eqLowerByte]

theorem eqLowerByte_symm {a b : Nat} (h : eqLowerByte a b = true) :
    eqLowerByte b a = true := by
  simp only [eqLowerByte, Bool.or_eq_true, Bool.and_eq_true, beq_iff_eq] at h ⊢
  rcases h with h | ⟨⟨hl, ha⟩, hb⟩
  · exact Or.inl h.symm
  · exact Or.inr ⟨⟨hl.symm, hb⟩, ha⟩

theorem eqLowerByte_trans {a b c : Nat} (h1 : eqLowerByte a b = true)
    (h2 : eqLowerByte b c = true) : eqLowerByte a c = true := by
  simp only [eqLowerByte, Bool.or_eq_true, Bool.and_eq_true, beq_iff_eq] at h1 h2 ⊢
  rcases h1 with h1 | ⟨⟨hl1, ha⟩, hb⟩
  · subst h1; exact h2
  · rcases h2 with h2 | ⟨⟨hl2, _⟩, hc⟩
    · subst h2; exact Or.inr ⟨⟨hl1, ha⟩, hb⟩
    · exact Or.inr ⟨⟨hl1.trans hl2, ha⟩, hc⟩

theorem eqLower_cons_iff (x y : Nat) (a b : Label) :
    eqLower (x :: a) (y :: b) = true ↔ (eqLowerByte x y = true ∧ eqLower a b = true) := by
  simp [eqLower, Bool.and_eq_true, List.all_eq_true, beq_iff_eq]
  tauto

theorem eqLower_nil_left (b : Label) : eqLower [] b = true ↔ b = [] := by
  cases b <;> simp [eqLower]

theorem eqLower_nil_right (a : Label) : eqLower a [] = true ↔ a = [] := by
  cases a <;> simp [eqLower]

theorem eqLower_refl (a : Label) : eqLower a a = true := by
  induction a with
  | nil => simp [eqLower]
  | cons x xs ih => exact (eqLower_cons_iff x x xs xs).mpr ⟨eqLowerByte_refl x, ih⟩

theorem eqLower_symm {a b : Label} (h : eqLower a b = true) : eqLower b a = true := by
  induction a generalizing b with
  | nil => rw [(eqLower_nil_left b).mp h]; exact eqLower_refl []
  | cons x xs ih =>
    cases b with
    | nil => exact absurd ((eqLower_nil_right _).mp h) (by simp)
    | cons y ys =>
      obtain ⟨h1, h2⟩ := (eqLower_cons_iff x y xs ys).mp h
      exact (eqLower_cons_iff y x ys xs).mpr ⟨eqLowerByte_symm h1, ih h2⟩

theorem eqLower_trans {a b c : Label} (h1 : eqLower a b = true)
    (h2 : eqLower b c = true) : eqLower a c = true := by
  induction a generalizing b c with
  | nil =>
    rw [(eqLower_nil_left b).mp h1] at h2
    rw [(eqLower_nil_left c).mp h2]
    exact eqLower_refl []
  | cons x xs ih =>
    cases b with
    | nil => exact absurd ((eqLower_nil_right _).mp h1) (by simp)
    | cons y ys =>
      cases c with
      | nil => exact absurd ((eqLower_nil_right _).mp h2) (by simp)
      | cons w ws =>
        obtain ⟨ha, hb⟩ := (eqLower_cons_iff x y xs ys).mp h1
        obtain ⟨hc, hd⟩ := (eqLower_cons_iff y w ys ws).mp h2
        exact (eqLower_cons_iff x w xs ws).mpr ⟨eqLowerByte_trans ha hc, ih hb hd⟩

theorem nameEq_cons_iff (x y : Label) (a b : DnsName) :
    nameEq (x :: a) (y :: b) = true ↔ (eqLower x y = true ∧ nameEq a b = true) := by
  simp [nameEq, Bool.and_eq_true, List.all_eq_true, beq_iff_eq]
  tauto

theorem nameEq_nil_left (b : DnsName) : nameEq [] b = true ↔ b = [] := by
  cases b <;> simp [nameEq]

theorem nameEq_nil_right (a : DnsName) : nameEq a [] = true ↔ a = [] := by
  cases a <;> simp [nameEq]

theorem nameEq_refl (a : DnsName) : nameEq a a = true := by
  induction a with
  | nil => simp [nameEq]
  | cons x xs ih => exact (nameEq_cons_iff x x xs xs).mpr ⟨eqLower_refl x, ih⟩

theorem nameEq_symm {a b : DnsName} (h : nameEq a b = true) : nameEq b a = true := by
  induction a generalizing b with
  | nil => rw [(nameEq_nil_left b).mp h]; exact nameEq_refl []
  | cons x xs ih =>
    cases b with
    | nil => exact absurd ((nameEq_nil_right _).mp h) (by simp)
    | cons y ys =>
      obtain ⟨h1, h2⟩ := (nameEq_cons_iff x y xs ys).mp h
      exact (nameEq_cons_iff y x ys xs).mpr ⟨eqLower_symm h1, ih h2⟩

theorem nameEq_trans {a b c : DnsName} (h1 : nameEq a b = true)
    (h2 : nameEq b c = true) : nameEq a c = true := by
  induction a generalizing b c with
  | nil =>
    rw [(nameEq_nil_left b).mp h1] at h2
    rw [(nameEq_nil_left c).mp h2]
    exact nameEq_refl []
  | cons x xs ih =>
    cases b with
    | nil => exact absurd ((nameEq_nil_right _).mp h1) (by simp)
    | cons y ys =>
      cases c with
      | nil => exact absurd ((nameEq_nil_right _).mp h2) (by simp)
      | cons w ws =>
        obtain ⟨ha, hb⟩ := (nameEq_cons_iff x y xs ys).mp h1
        obtain ⟨hc, hd⟩ := (nameEq_cons_iff y w ys ws).mp h2
        exact (nameEq_cons_iff x w xs ws).mpr ⟨eqLower_trans ha hc, ih hb hd⟩

set_option maxRecDepth 8000 in
theorem eqLowerByte_toLower_all : ∀ b < 256, eqLowerByte (toLowerByte b) b = true := by
  decide

theorem eqLower_lowerLabel {l : Label} (h : l.all (· < 256) = true) :
    eqLower (lowerLabel l) l = true := by
  induction l with
  | nil => simp [eqLower, lowerLabel]
  | cons x xs ih =>
    simp only [List.all_cons, Bool.and_eq_true, decide_eq_true_eq] at h
    simp only [lowerLabel, List.map_cons]
    exact (eqLower_cons_iff _ x _ xs).mpr ⟨eqLowerByte_toLower_all x h.1, ih h.2⟩

theorem nameEq_lowerName {n : DnsName} (h : nameWF n = true) :
    nameEq (lowerName n) n = true := by
  induction n with
  | nil => simp [nameEq, lowerName]
  | cons l ls ih =>
    simp only [nameWF, List.all_cons, Bool.and_eq_true, labelWF] at h
    simp only [lowerName, List.map_cons]
    refine (nameEq_cons_iff _ l _ ls).mpr ⟨eqLower_lowerLabel h.1.2, ?_⟩
    exact ih h.2

/-! ## C1: classification of `Zone::lookup` -/

/-- C1: for every zone `z`, name `n` and record type `t`, `Zone::lookup`
classifies the outcome exactly as: `Records v` iff the type key `t` exists
under `n` in the record map (with value `v`); `CNAMELookup c` iff the name is
present, the type key is absent, and `c` is the first CNAME record stored at
`n`; `NameExists soa` iff the name is present, the type key is absent, and
there is no (first) CNAME record; `NoName soa` iff the name is absent — the
SOA payload being in both cases the synthetic SOA built on demand from the
zone's origin and serial. -/
theorem claim1_lookup_classification (z : Zone) (n : DnsName) (t : Nat) :
    (∀ v, z.lookup n t = .records v ↔
      (recMapGet z.records n).bind (fun h => typeMapGet h t) = some v) ∧
    (∀ c, z.lookup n t = .cnameLookup c ↔
      ((recMapGet z.records n).isSome = true ∧
       (recMapGet z.records n).bind (fun h => typeMapGet h t) = none ∧
       (recMapGet z.records n).bind (fun h => (typeMapGet h 5).bind List.head?) = some c)) ∧
    (z.lookup n t = .nameExists z.soaRecord ↔
      ((recMapGet z.records n).isSome = true ∧
       (recMapGet z.records n).bind (fun h => typeMapGet h t) = none ∧
       (recMapGet z.records n).bind (fun h => (typeMapGet h 5).bind List.head?) = none)) ∧
    (z.lookup n t = .noName z.soaRecord ↔ recMapGet z.records n = none) := by
  unfold Zone.lookup
  cases hm : recMapGet z.records n with
  | none => simp
  | some h =>
    cases ht : typeMapGet h t with
    | some v => simp [ht]
    | none =>
      cases h5 : typeMapGet h 5 with
      | none => simp [ht, h5]
      | some v5 =>
        cases hh : v5.head? with
        | none => simp [ht, h5, hh]
        | some c => simp [ht, h5, hh]

/-! ## C4: `Zone::lookup` and delegation -/

/-- C4 (amended): `Zone::lookup` never produces the `Delegated` outcome; it
returns only `Records`, `CNAMELookup`, `NameExists` or `NoName`. -/
theorem claim4_lookup_never_delegated (z : Zone) (n : DnsName) (t : Nat) :
    (z.lookup n t).isDelegated = false := by
  unfold Zone.lookup
  cases hm : recMapGet z.records n with
  | none => rfl
  | some h =>
    cases ht : typeMapGet h t with
    | some v => simp [ht, LookupResult.isDelegated]
    | none =>
      cases h5 : (typeMapGet h 5).map List.head? with
      | none => simp [ht, h5, LookupResult.isDelegated]
      | some o => cases o <;> simp [ht, h5, LookupResult.isDelegated]

/-- C4 counterexample: in a zone holding NS records at the non-origin name
`sub.example.invalid`, looking up `www.sub.example.invalid` (below the
delegation point, type A with no records at that exact name) returns
`NoName(soa)` — not the `Delegated` outcome the claim requires. -/
theorem claim4_counterexample :
    delegZone.lookup wwwSubExampleInvalid 1 = .noName ⟨exampleInvalid, 1234567890⟩ ∧
    (delegZone.lookup wwwSubExampleInvalid 1).isDelegated = false := by
  decide

/-! ## C5: zone-load serial policy -/

/-- C5 (amended): a zone-file load into an authority whose map already holds
a zone with the same origin is ignored exactly when the file's serial is
lower than **or equal to** the in-memory serial; the new zone replaces the
prior entry only when its serial is strictly greater. -/
theorem claim5_serial_policy (a : Authority) (z cur : Zone)
    (h : authGet a z.origin = some cur) :
    (((loadZone a z).2 = false) ↔ z.serial ≤ cur.serial) ∧
    ((loadZone a z).2 = false → (loadZone a z).1 = a) ∧
    (cur.serial < z.serial → loadZone a z = (authInsert a z.origin z, true)) := by
  unfold loadZone
  rw [h]
  by_cases hlt : cur.serial < z.serial
  · simp [hlt]
    try omega
  · simp [hlt]
    try omega

/-- C5 witness: loading a serial-5 zone over an existing serial-5 zone. -/
theorem claim5_witness :
    authGet [(exampleInvalid, zoneSerialFive)] zoneSerialFiveTxt.origin = some zoneSerialFive ∧
    (((loadZone [(exampleInvalid, zoneSerialFive)] zoneSerialFiveTxt).2 = false) ↔
      zoneSerialFiveTxt.serial ≤ zoneSerialFive.serial) := by
  refine ⟨by decide, ?_⟩
  exact (claim5_serial_policy [(exampleInvalid, zoneSerialFive)] zoneSerialFiveTxt
    zoneSerialFive (by decide)).1

/-- C5 counterexample: a load whose serial equals the current serial (5 = 5,
so not strictly lower) is ignored — the map is unchanged and the load
reports `false` — contradicting the claim that an equal serial replaces the
prior entry. -/
theorem claim5_counterexample :
    loadZone [(exampleInvalid, zoneSerialFive)] zoneSerialFiveTxt
      = ([(exampleInvalid, zoneSerialFive)], false) ∧
    zoneSerialFiveTxt.serial = zoneSerialFive.serial ∧
    zoneSerialFiveTxt ≠ zoneSerialFive := by
  decide

/-! ## The three steps of the name-decode loop -/

theorem nameDecodeAux_step_pointer {msg : List Nat} {pos b lo : Nat} (f origPos jumps : Nat)
    (acc : DnsName) (hb : msg.get? pos = some b) (h63 : 63 < b)
    (hlo : msg.get? (pos + 1) = some lo) :
    nameDecodeAux msg (f + 1) pos origPos jumps acc =
      if jumps = 20 then .error (.pointerLimit, pos + 2)
      else nameDecodeAux msg f (((b &&& 63) <<< 8) + lo)
        (if jumps = 0 then pos + 2 else origPos) (jumps + 1) acc := by
  have hb0 : ¬ b = 0 := by omega
  simp only [nameDecodeAux, hb, hlo]
  simp [hb0, h63]

theorem nameDecodeAux_step_zero {msg : List Nat} {pos : Nat} (f origPos jumps : Nat)
    (acc : DnsName) (hb : msg.get? pos = some 0) :
    nameDecodeAux msg (f + 1) pos origPos jumps acc =
      .ok (acc, if 0 < jumps then origPos else pos + 1) := by
  simp only [nameDecodeAux, hb]
  simp

theorem nameDecodeAux_step_label {msg : List Nat} {pos b : Nat} (f origPos jumps : Nat)
    (acc : DnsName) (hb : msg.get? pos = some b) (h0 : 0 < b) (h63 : b ≤ 63)
    (hlen : pos + 1 + b ≤ msg.length) :
    nameDecodeAux msg (f + 1) pos origPos jumps acc =
      nameDecodeAux msg f (pos + 1 + b) origPos jumps
        (acc ++ [(msg.drop (pos + 1)).take b]) := by
  have hb0 : ¬ b = 0 := by omega
  have h63' : ¬ 63 < b := by omega
  simp only [nameDecodeAux, hb]
  simp [hb0, h63', hlen]

/-! ## C8: reserved length octets -/

/-- C8 (amended): every length octet greater than 63 — in particular the
reserved values 0x40–0xBF whose top two bits are 01 or 10 — is handled by
the compression-pointer branch of `Name::decode`: the top two bits are
masked off, the following byte is read, and decoding either fails with the
pointer-recursion limit (when this is the 21st pointer) or continues at the
14-bit offset. Such octets are never rejected as reserved (and never taken
as a literal label length). -/
theorem claim8_reserved_octets_pointer {msg : List Nat} {pos b lo : Nat}
    (f origPos jumps : Nat) (acc : DnsName) (hb : msg.get? pos = some b) (h63 : 63 < b)
    (hlo : msg.get? (pos + 1) = some lo) :
    nameDecodeAux msg (f + 1) pos origPos jumps acc =
      if jumps = 20 then .error (.pointerLimit, pos + 2)
      else nameDecodeAux msg f (((b &&& 63) <<< 8) + lo)
        (if jumps = 0 then pos + 2 else origPos) (jumps + 1) acc :=
  nameDecodeAux_step_pointer f origPos jumps acc hb h63 hlo

/-- C8 witness: the reserved octet 0x84 at position 0 of `[0x84, 0x07]` is
followed as a pointer to offset `(0x84 & 0x3f) * 256 + 7`. -/
theorem claim8_witness :
    nameDecodeAux [132, 7] 4 0 0 0 [] =
      nameDecodeAux [132, 7] 3 (((132 &&& 63) <<< 8) + 7) 2 1 [] := by
  have h := @claim8_reserved_octets_pointer [132, 7] 0 132 7 3 0 0 []
    rfl (by norm_num) rfl
  simpa using h

/-- C8 counterexample: decoding the message `[0x40, 0x02, 0x00]` from
position 0 — whose length octet 0x40 has top bits 01, a reserved form the
claim says must be rejected — succeeds: 0x40 is interpreted as a compression
pointer to offset 2, where the root terminator ends the (empty) name. -/
theorem claim8_counterexample : nameDecode [64, 2, 0] 0 = .ok ([], 2) := by
  decide

/-! ## C7: the 20-hop pointer limit on the chain family -/

theorem chain_length (n : Nat) : (chain n).length = 2 * n + 3 := by
  simp [chain]

theorem chain_get_even {n k : Nat} (hk : k < n) :
    (chain n).get? (2 * k) = some (192 + 2 * (k + 1) / 256) := by
  have hlt : 2 * k < (List.ofFn fun i : Fin (2 * n) => chainByte n i).length := by
    simp; omega
  rw [chain, List.get?_append hlt, List.get?_ofFn]
  have h2 : 2 * k < 2 * n := by omega
  simp only [List.ofFnNthVal, h2, dif_pos]
  have he : (2 * k) % 2 = 0 := by omega
  have hd : 2 * k / 2 = k := by omega
  simp [chainByte, h2, he, hd]

theorem chain_get_odd {n k : Nat} (hk : k < n) :
    (chain n).get? (2 * k + 1) = some (2 * (k + 1) % 256) := by
  have hlt : 2 * k + 1 < (List.ofFn fun i : Fin (2 * n) => chainByte n i).length := by
    simp; omega
  rw [chain, List.get?_append hlt, List.get?_ofFn]
  have h2 : 2 * k + 1 < 2 * n := by omega
  simp only [List.ofFnNthVal, h2, dif_pos]
  have he : ¬ (2 * k + 1) % 2 = 0 := by omega
  have hd : (2 * k + 1) / 2 = k := by omega
  simp [chainByte, h2, he, hd]

theorem chain_get_label (n : Nat) : (chain n).get? (2 * n) = some 1 := by
  have hle : (List.ofFn fun i : Fin (2 * n) => chainByte n i).length ≤ 2 * n := by simp
  rw [chain, List.get?_append_right hle]
  simp

theorem chain_get_end (n : Nat) : (chain n).get? (2 * n + 2) = some 0 := by
  have hle : (List.ofFn fun i : Fin (2 * n) => chainByte n i).length ≤ 2 * n + 2 := by
    simp only [List.length_ofFn]
    omega
  rw [chain, List.get?_append_right hle]
  simp

theorem chain_drop (n : Nat) : (chain n).drop (2 * n + 1) = [97, 0] := by
  have h : (chain n).drop (2 * n + 1) =
      ((List.ofFn fun i : Fin (2 * n) => chainByte n i) ++ [1, 97, 0]).drop
        ((List.ofFn fun i : Fin (2 * n) => chainByte n i).length + 1) := by
    simp [chain]
  rw [h, List.drop_append]
  rfl

theorem mask63 {q : Nat} (hq : q < 64) : (192 + q) &&& 63 = q := by
  have h : (63 : Nat) = 2 ^ 6 - 1 := by norm_num
  rw [h, Nat.and_pow_two_sub_one_eq_mod]
  omega

theorem chain_step {n k : Nat} (hk : k < n) (hn : n ≤ 1000) (f origPos jumps : Nat)
    (acc : DnsName) :
    nameDecodeAux (chain n) (f + 1) (2 * k) origPos jumps acc =
      if jumps = 20 then .error (.pointerLimit, 2 * k + 2)
      else nameDecodeAux (chain n) f (2 * (k + 1))
        (if jumps = 0 then 2 * k + 2 else origPos) (jumps + 1) acc := by
  have hb := chain_get_even hk
  have hlo := chain_get_odd hk
  have h63 : 63 < 192 + 2 * (k + 1) / 256 := by omega
  rw [nameDecodeAux_step_pointer f origPos jumps acc hb h63 hlo]
  have hq : 2 * (k + 1) / 256 < 64 := by omega
  rw [mask63 hq, Nat.shiftLeft_eq]
  have hdm : 2 * (k + 1) / 256 * 2 ^ 8 + 2 * (k + 1) % 256 = 2 * (k + 1) := by
    norm_num
    omega
  rw [hdm]

theorem chain_tail (n f origPos jumps : Nat) (acc : DnsName) :
    nameDecodeAux (chain n) (f + 2) (2 * n) origPos jumps acc =
      .ok (acc ++ [[97]], if 0 < jumps then origPos else 2 * n + 3) := by
  have hb := chain_get_label n
  have hlen : 2 * n + 1 + 1 ≤ (chain n).length := by
    rw [chain_length]
    omega
  rw [show f + 2 = (f + 1) + 1 from rfl,
    nameDecodeAux_step_label (f + 1) origPos jumps acc hb (by omega) (by omega) hlen]
  have hsl : ((chain n).drop (2 * n + 1)).take 1 = [97] := by
    rw [chain_drop]
    rfl
  have hz : (chain n).get? (2 * n + 1 + 1) = some 0 := by
    have h := chain_get_end n
    simpa [Nat.add_assoc] using h
  rw [hsl, nameDecodeAux_step_zero f origPos jumps (acc ++ [[97]]) hz]

theorem chain_run {n : Nat} (hn : n ≤ 1000) :
    ∀ m k, k + m = n → 1 ≤ k → k ≤ 20 → ∀ f acc,
      nameDecodeAux (chain n) (m + f + 2) (2 * k) 2 k acc =
        (if n ≤ 20 then .ok (acc ++ [[97]], 2) else .error (.pointerLimit, 42)) := by
  intro m
  induction m with
  | zero =>
    intro k hkm hk1 hk20 f acc
    have hkn : k = n := by omega
    subst hkn
    rw [show 0 + f + 2 = f + 2 from by omega, chain_tail]
    simp [hk20, hk1]
    omega
  | succ m ih =>
    intro k hkm hk1 hk20 f acc
    have hk : k < n := by omega
    rw [show m + 1 + f + 2 = (m + f + 2) + 1 from by omega, chain_step hk hn]
    by_cases h20 : k = 20
    · subst h20
      have hgt : ¬ n ≤ 20 := by omega
      simp [hgt]
    · rw [if_neg h20]
      have h0 : ¬ k = 0 := by omega
      rw [if_neg h0]
      exact ih (k + 1) (by omega) (by omega) (by omega) f acc

theorem nameDecodeAux_resolve (msg : List Nat) :
    ∀ (fuel pos origPos jumps : Nat) (acc : DnsName), jumps ≤ 20 →
      nameDecodeAux msg fuel pos origPos jumps acc =
        if (nameResolveAux msg fuel pos origPos jumps acc).2.length ≤ 20 - jumps
        then (nameResolveAux msg fuel pos origPos jumps acc).1
        else .error (.pointerLimit,
          (nameResolveAux msg fuel pos origPos jumps acc).2.getD (20 - jumps) 0) := by
  intro fuel
  induction fuel with
  | zero =>
    intro pos origPos jumps acc _
    simp [nameDecodeAux, nameResolveAux]
  | succ f ih =>
    intro pos origPos jumps acc hj
    cases hb : msg.get? pos with
    | none =>
      simp only [nameDecodeAux, nameResolveAux, hb]
      simp
    | some len =>
      by_cases h0 : len = 0
      · simp only [nameDecodeAux, nameResolveAux, hb]
        simp [h0]
      · by_cases h63 : 63 < len
        · cases hlo : msg.get? (pos + 1) with
          | none =>
            simp only [nameDecodeAux, nameResolveAux, hb, hlo]
            simp [h0, h63]
          | some lo =>
            by_cases h20 : jumps = 20
            · subst h20
              simp only [nameDecodeAux, nameResolveAux, hb, hlo]
              simp [h0, h63]
            · cases hr : nameResolveAux msg f (((len &&& 63) <<< 8) + lo)
                  (if jumps = 0 then pos + 2 else origPos) (jumps + 1) acc with
              | mk res hops =>
                have hstep : nameDecodeAux msg (f + 1) pos origPos jumps acc =
                    nameDecodeAux msg f (((len &&& 63) <<< 8) + lo)
                      (if jumps = 0 then pos + 2 else origPos) (jumps + 1) acc := by
                  simp only [nameDecodeAux, hb, hlo]
                  simp [h0, h63, h20]
                have href : nameResolveAux msg (f + 1) pos origPos jumps acc =
                    (res, (pos + 2) :: hops) := by
                  simp only [nameResolveAux, hb, hlo]
                  simp [h0, h63, hr]
                have hIH := ih (((len &&& 63) <<< 8) + lo)
                  (if jumps = 0 then pos + 2 else origPos) (jumps + 1) acc (by omega)
                rw [hr] at hIH
                simp only [] at hIH
                rw [hstep, hIH]
                simp only [href]
                by_cases hcnd : hops.length ≤ 20 - (jumps + 1)
                · rw [if_pos hcnd, if_pos (show ((pos + 2) :: hops).length ≤ 20 - jumps from
                    by simp only [List.length_cons]; omega)]
                · rw [if_neg hcnd, if_neg (show ¬ ((pos + 2) :: hops).length ≤ 20 - jumps from
                    by simp only [List.length_cons]; omega)]
                  rw [show 20 - jumps = (20 - (jumps + 1)) + 1 from by omega,
                    List.getD_cons_succ]
        · by_cases hrange : pos + 1 + len ≤ msg.length
          · have hstep : nameDecodeAux msg (f + 1) pos origPos jumps acc =
                nameDecodeAux msg f (pos + 1 + len) origPos jumps
                  (acc ++ [(msg.drop (pos + 1)).take len]) := by
              simp only [nameDecodeAux, hb]
              simp [h0, h63, hrange]
            have href : nameResolveAux msg (f + 1) pos origPos jumps acc =
                nameResolveAux msg f (pos + 1 + len) origPos jumps
                  (acc ++ [(msg.drop (pos + 1)).take len]) := by
              simp only [nameResolveAux, hb]
              simp [h0, h63, hrange]
            rw [hstep, href]
            exact ih (pos + 1 + len) origPos jumps (acc ++ [(msg.drop (pos + 1)).take len]) hj
          · simp only [nameDecodeAux, nameResolveAux, hb]
            simp [h0, h63, hrange]

/-- **C7.** The 20-hop pointer limit of `Name::decode`, universally: for
every message and start position, where the reference resolver (the same
walk with no hop limit) records the pointer hops the name requires, (i) if
the name resolves within at most 20 pointer hops, `Name::decode` returns
exactly the fully resolved label sequence, and (ii) if the name requires
more than 20 pointer hops, `Name::decode` fails with
`NamePointerRecursionLimitReached`, raised where the 21st hop would be
taken. -/
theorem claim7_pointer_hop_limit (msg : List Nat) (pos : Nat) :
    (∀ labels ret, (nameResolve msg pos).2.length ≤ 20 →
        (nameResolve msg pos).1 = .ok (labels, ret) →
        nameDecode msg pos = .ok (labels, ret)) ∧
    (20 < (nameResolve msg pos).2.length →
      nameDecode msg pos = .error (.pointerLimit, (nameResolve msg pos).2.getD 20 0)) := by
  have h := nameDecodeAux_resolve msg (22 * (msg.length + 2)) pos 0 0 [] (by omega)
  constructor
  · intro labels ret hle hok
    rw [nameDecode, h, if_pos (by simpa using hle)]
    exact hok
  · intro hgt
    rw [nameDecode, h, if_neg (by simpa using hgt)]
    rfl

/-- C7 witness: the plain name `[1, 97, 0]` needs 0 hops and decodes to the
label sequence `["a"]`; the self-pointing pointer `[0xC0, 0x00]` requires
more than 20 hops (it never terminates) and is rejected with the pointer
limit at cursor 2. -/
theorem claim7_witness :
    (nameResolve [1, 97, 0] 0).2.length ≤ 20 ∧
    (nameResolve [1, 97, 0] 0).1 = .ok ([[97]], 3) ∧
    nameDecode [1, 97, 0] 0 = .ok ([[97]], 3) ∧
    20 < (nameResolve [192, 0] 0).2.length ∧
    nameDecode [192, 0] 0 = .error (.pointerLimit, 2) := by
  refine ⟨by decide, by decide, ?_, by decide, ?_⟩
  · exact (claim7_pointer_hop_limit [1, 97, 0] 0).1 [[97]] 3 (by decide) (by decide)
  · have h := (claim7_pointer_hop_limit [192, 0] 0).2 (by decide)
    have h2 : (nameResolve [192, 0] 0).2.getD 20 0 = 2 := by decide
    rwa [h2] at h

/-! ## C9: TXT wire chunking -/

theorem chunks255_eq_nil : chunks255 [] = [] := by
  rw [chunks255]
  simp

theorem chunks255_eq_cons {s : List Nat} (h : s ≠ []) :
    chunks255 s = s.take 255 :: chunks255 (s.drop 255) := by
  rw [chunks255]
  simp [h]

theorem chunks255_spec (n : Nat) : ∀ s : List Nat, s.length ≤ n →
    (∀ c ∈ chunks255 s, c.length ≤ 255 ∧ c ≠ []) ∧
    (chunks255 s).flatten = s ∧
    (chunks255 s).length = (s.length + 254) / 255 := by
  induction n with
  | zero =>
    intro s hlen
    have hs : s = [] := by
      cases s with
      | nil => rfl
      | cons x xs => simp at hlen
    subst hs
    simp [chunks255_eq_nil]
  | succ n ih =>
    intro s hlen
    by_cases hs : s = []
    · subst hs
      simp [chunks255_eq_nil]
    · have hpos : 0 < s.length := List.length_pos.mpr hs
      obtain ⟨iha, ihb, ihc⟩ := ih (s.drop 255) (by simp; omega)
      rw [chunks255_eq_cons hs]
      refine ⟨?_, ?_, ?_⟩
      · intro c hc
        rcases List.mem_cons.mp hc with hc | hc
        · subst hc
          constructor
          · simp
          · have : (s.take 255).length = min 255 s.length := List.length_take 255 s
            intro hnil
            rw [hnil] at this
            simp at this
            omega
        · exact iha c hc
      · simp only [List.flatten_cons, ihb, List.take_append_drop]
      · simp only [List.length_cons, ihc, List.length_drop]
        omega

theorem flatMap_len_cons_length (cs : List (List Nat)) :
    (cs.flatMap fun c => c.length :: c).length = cs.length + cs.flatten.length := by
  induction cs with
  | nil => simp
  | cons c rest ih => simp [ih]; omega

theorem txtEncodeChunks_ok (cs : List (List Nat)) (h : ∀ c ∈ cs, c.length ≤ 255) :
    ∀ buf, txtEncodeChunks cs buf =
      .ok { buf with writer := buf.writer ++ cs.flatMap fun c => c.length :: c } := by
  induction cs with
  | nil => intro buf; simp [txtEncodeChunks]
  | cons c rest ih =>
    intro buf
    have hc : c.length ≤ 255 := h c (List.mem_cons_self c rest)
    rw [txtEncodeChunks, if_pos hc, ih (fun d hd => h d (List.mem_cons_of_mem c hd))]
    simp

/-- C9 (amended): wire-encoding TXT rdata splits the stored byte string into
consecutive chunks of at most 255 bytes, each preceded by a one-byte length,
and `encode_len` matches the number of bytes emitted; the chunk count is
`⌈len/255⌉` — in particular 1, 1, 2 and 2 segments for 254, 255, 256 and 510
bytes — but a zero-length TXT string emits **zero** segments and zero bytes
of rdata, not a single zero length-byte. -/
theorem claim9_txt_chunking (s : List Nat) :
    (∀ c ∈ chunks255 s, c.length ≤ 255 ∧ c ≠ []) ∧
    (chunks255 s).flatten = s ∧
    (chunks255 s).length = (s.length + 254) / 255 ∧
    (∀ buf, rdataEncode (.txt s) buf =
      .ok { buf with writer := buf.writer ++ txtWire s }) ∧
    (txtWire s).length = s.length / 255 + min 1 (s.length % 255) + s.length := by
  obtain ⟨ha, hb, hc⟩ := chunks255_spec s.length s le_rfl
  refine ⟨ha, hb, hc, ?_, ?_⟩
  · intro buf
    exact txtEncodeChunks_ok (chunks255 s) (fun c hcm => (ha c hcm).1) buf
  · rw [txtWire, flatMap_len_cons_length, hb, hc]
    omega

/-- C9 counterexample: a zero-length TXT string encodes as **zero** bytes of
rdata — no segments at all and `encode_len` 0 — not as a single zero
length-byte (one segment, one byte) as the claim states. -/
theorem claim9_counterexample :
    rdataEncode (.txt []) ⟨[], []⟩ = .ok ⟨[], []⟩ ∧
    txtWire [] = [] ∧
    (chunks255 []).length = 0 ∧
    rdataEncodeLen (.txt []) [] = .ok 0 ∧
    txtWire [] ≠ [0] := by
  refine ⟨?_, ?_, ?_, ?_, ?_⟩ <;>
    simp [rdataEncode, txtWire, chunks255_eq_nil, txtEncodeChunks, rdataEncodeLen]

/-! ## C3: protocol-error replies -/

/-- C3 (amended): for every input on which query decoding fails with a
decode error (not an out-of-bounds panic), `process_message` returns the
canonical **12-byte** reply `encode_err(id, 1)`: QR = 1, Opcode = 0,
**AA = 0**, TC = 0, RD = 0 (flags byte `0x80`), RCODE = 1 (FormErr), and
QDCOUNT, ANCOUNT, NSCOUNT, ARCOUNT all zero — the echoed id being the two
bytes read at the cursor position where decoding stopped (not, in general,
the first two bytes of the input). -/
theorem claim3_decode_failure_reply (auth : Authority) (msg : List Nat) (e : DecodeError)
    (pos : Nat) (echo : Nat × Nat)
    (hdec : queryDecode msg = .error (e, pos))
    (hr : e ≠ .readPastEnd) (hf : e ≠ .fuel)
    (hecho : getU16 msg pos = .ok echo) :
    processMessage auth msg = some (encodeErr echo.1 1) ∧
    (encodeErr echo.1 1).length = 12 ∧
    encodeErr echo.1 1 = be16 echo.1 ++ [128, 1] ++ [0, 0, 0, 0, 0, 0, 0, 0] := by
  refine ⟨?_, by simp [encodeErr, be16], rfl⟩
  unfold processMessage
  rw [hdec]
  cases e <;> first
    | exact absurd rfl hr
    | exact absurd rfl hf
    | simp [hecho]

/-- C3 witness: the query `[0xAB, 0xCD, 0xFF, 0x00, 0x00]` fails header
validation at cursor position 3, and the reply echoes the bytes there. -/
theorem claim3_witness :
    queryDecode [171, 205, 255, 0, 0] = .error (.unacceptableHeader, 3) ∧
    processMessage [] [171, 205, 255, 0, 0] = some (encodeErr 0 1) := by
  refine ⟨by decide, ?_⟩
  have h := claim3_decode_failure_reply [] [171, 205, 255, 0, 0] .unacceptableHeader 3 (0, 5)
    (by decide) (by decide) (by decide) (by decide)
  exact h.1

/-- C3 counterexample: on the failing input `[0xAB, 0xCD, 0xFF, 0x00, 0x00]`
(unacceptable header flags), the reply is `[0, 0, 0x80, 1, 0 × 8]`: it is 12
bytes long, not 8; its first two bytes `[0, 0]` are the bytes at the failure
position, not the query id `[0xAB, 0xCD]`; and its flags byte `0x80` has the
AA bit (`0x04`) clear, not set. -/
theorem claim3_counterexample :
    processMessage [] [171, 205, 255, 0, 0] = some [0, 0, 128, 1, 0, 0, 0, 0, 0, 0, 0, 0] ∧
    ([0, 0, 128, 1, 0, 0, 0, 0, 0, 0, 0, 0] : List Nat).length = 12 ∧
    ([0, 0] : List Nat) ≠ [171, 205] ∧
    (128 &&& 4 : Nat) = 0 := by
  decide

/-! ## Writers only append -/

theorem nameEncode_writer :
    ∀ (n : DnsName) (buf buf' : ResponseBuffer), nameEncode n buf = .ok buf' →
      ∃ t, buf'.writer = buf.writer ++ t := by
  intro n
  induction n with
  | nil =>
    intro buf buf' h
    simp only [nameEncode, Except.ok.injEq] at h
    exact ⟨[0], by rw [← h]⟩
  | cons l rest ih =>
    intro buf buf' h
    cases hg : namesGet buf.names (l :: rest) with
    | some pos =>
      simp only [nameEncode, hg] at h
      by_cases hle : 49152 + pos ≤ 65535
      · rw [if_pos hle] at h
        simp only [Except.ok.injEq] at h
        exact ⟨be16 (49152 + pos), by rw [← h]⟩
      · rw [if_neg hle] at h
        exact absurd h (by simp)
    | none =>
      simp only [nameEncode, hg] at h
      by_cases h1 : buf.writer.length ≤ 65535
      · rw [if_pos h1] at h
        by_cases h2 : l.length ≤ 255
        · rw [if_pos h2] at h
          obtain ⟨t, ht⟩ := ih _ _ h
          refine ⟨[l.length] ++ l ++ t, ?_⟩
          rw [ht]
          simp
        · rw [if_neg h2] at h
          exact absurd h (by simp)
      · rw [if_neg h1] at h
        exact absurd h (by simp)

theorem soaEncodeRdata_writer (soa : SOARecord) (buf buf' : ResponseBuffer)
    (h : soaEncodeRdata soa buf = .ok buf') : ∃ t, buf'.writer = buf.writer ++ t := by
  simp only [soaEncodeRdata, bind, Except.bind] at h
  cases h1 : nameEncode soaMname buf with
  | error e =>
    rw [h1] at h
    simp at h
  | ok buf1 =>
    rw [h1] at h
    simp only [] at h
    cases h2 : nameEncode soaRname buf1 with
    | error e =>
      rw [h2] at h
      simp at h
    | ok buf2 =>
      rw [h2] at h
      simp only [Except.ok.injEq] at h
      obtain ⟨t1, ht1⟩ := nameEncode_writer _ _ _ h1
      obtain ⟨t2, ht2⟩ := nameEncode_writer _ _ _ h2
      refine ⟨t1 ++ t2 ++ (be32 soa.serial ++ be32 1000 ++ be32 2400 ++ be32 604800 ++ be32 3600), ?_⟩
      rw [← h]
      simp only [ht2, ht1]
      simp

theorem soaRecordEncode_writer (soa : SOARecord) (buf buf' : ResponseBuffer)
    (h : soaRecordEncode soa buf = .ok buf') : ∃ t, buf'.writer = buf.writer ++ t := by
  simp only [soaRecordEncode, bind, Except.bind] at h
  cases h1 : nameEncode soa.origin buf with
  | error e =>
    rw [h1] at h
    simp at h
  | ok buf1 =>
    rw [h1] at h
    simp only [] at h
    cases h2 : soaEncodeRdataLen (bufNamesSet (putU32 3600 (putU16 1 (putU16 6 buf1)))) with
    | error e =>
      rw [h2] at h
      simp at h
    | ok len =>
      rw [h2] at h
      simp only [] at h
      obtain ⟨t1, ht1⟩ := nameEncode_writer _ _ _ h1
      obtain ⟨t2, ht2⟩ := soaEncodeRdata_writer _ _ _ h
      refine ⟨t1 ++ (be16 6 ++ be16 1 ++ be32 3600 ++ be16 len) ++ t2, ?_⟩
      rw [ht2]
      simp only [putU16, putU32, ht1]
      simp

/-! ## C2: negative responses carry the SOA after the question -/

/-- C2 (amended): for every query whose lookup result is `NameExists(soa)`
or `NoName(soa)`, the encoded response carries the single synthetic SOA as
the one record after the echoed question, but counts it in the
**ADDITIONAL** section: the header counts are ANCOUNT = 0, NSCOUNT = 0,
ARCOUNT = 1 (bytes 6–11 of the message are `00 00 00 00 00 01`). -/
theorem claim2_negative_soa_section (q : QueryMessage) (soa : SOARecord) (lr : LookupResult)
    (hlr : lr = .nameExists soa ∨ lr = .noName soa) (out : ResponseBuffer)
    (henc : responseEncode ⟨q, lr⟩ ⟨[], []⟩ = .ok out) :
    ∃ qbuf : ResponseBuffer,
      nameEncode q.name
        ⟨[q.id / 256 % 256, q.id % 256, 132, lr.rcode, 0, 1, 0, 0, 0, 0, 0, 1], []⟩ = .ok qbuf ∧
      soaRecordEncode soa (putU16 1 (putU16 q.recordType qbuf)) = .ok out ∧
      (out.writer.drop 6).take 6 = [0, 0, 0, 0, 0, 1] := by
  have hcounts : lr.counts = [0, 0, 1] := by
    rcases hlr with h | h <;> subst h <;> rfl
  have hauth : lr.authoritative = true := by
    rcases hlr with h | h <;> subst h <;> rfl
  have hsect : ∀ b, lookupResultEncode lr b = soaRecordEncode soa b := by
    intro b
    rcases hlr with h | h <;> subst h <;> rfl
  simp only [responseEncode, hcounts, hauth, if_pos, countsEncode, putU16, be16,
    bind, Except.bind] at henc
  norm_num at henc
  cases hqn : nameEncode q.name
      ⟨[q.id / 256 % 256, q.id % 256, 132, lr.rcode, 0, 1, 0, 0, 0, 0, 0, 1], []⟩ with
  | error e =>
    rw [hqn] at henc
    exact absurd henc (by simp)
  | ok qbuf =>
    rw [hqn] at henc
    simp only [] at henc
    rw [hsect] at henc
    have hsoa : soaRecordEncode soa (putU16 1 (putU16 q.recordType qbuf)) = .ok out := by
      simpa [putU16, be16] using henc
    refine ⟨qbuf, rfl, hsoa, ?_⟩
    obtain ⟨t1, ht1⟩ := nameEncode_writer _ _ _ hqn
    obtain ⟨t2, ht2⟩ := soaRecordEncode_writer _ _ _ hsoa
    rw [ht2]
    simp only [putU16, ht1]
    simp

/-- C2 witness: the encoded `NameExists` response for `www.example.invalid
MX` against the `example.invalid` zone. -/
theorem claim2_witness :
    responseEncode ⟨c2Query, .nameExists c2Soa⟩ ⟨[], []⟩ = .ok c2Buf ∧
    ∃ qbuf : ResponseBuffer,
      nameEncode c2Query.name
        ⟨[c2Query.id / 256 % 256, c2Query.id % 256, 132,
          (LookupResult.nameExists c2Soa).rcode, 0, 1, 0, 0, 0, 0, 0, 1], []⟩ = .ok qbuf ∧
      soaRecordEncode c2Soa (putU16 1 (putU16 c2Query.recordType qbuf)) = .ok c2Buf ∧
      (c2Buf.writer.drop 6).take 6 = [0, 0, 0, 0, 0, 1] := by
  have henc : responseEncode ⟨c2Query, .nameExists c2Soa⟩ ⟨[], []⟩ = .ok c2Buf := by decide
  exact ⟨henc, claim2_negative_soa_section c2Query c2Soa _ (Or.inl rfl) c2Buf henc⟩

/-- C2 counterexample: for the `NameExists` response to `www.example.invalid
MX` (zone `example.invalid`, serial 1234567890), the encoded count bytes
(message bytes 6–11) are `00 00 00 00 00 01` — ANCOUNT = 0, NSCOUNT = 0,
ARCOUNT = 1 — not `00 00 00 01 00 00` (NSCOUNT = 1, ARCOUNT = 0) as the
claim's AUTHORITY placement requires. -/
theorem claim2_counterexample :
    ((responseEncode ⟨c2Query, .nameExists c2Soa⟩ ⟨[], []⟩).map
      fun b => (b.writer.drop 6).take 6) = .ok [0, 0, 0, 0, 0, 1] ∧
    ([0, 0, 0, 0, 0, 1] : List Nat) ≠ [0, 0, 0, 1, 0, 0] := by
  refine ⟨by decide, by decide⟩

/-! ## MessagePack primitive round trips -/

theorem readUint_writeUint {n : Nat} (h : n < 18446744073709551616) (rest : List Nat) :
    readUint (writeUint n ++ rest) = .ok (n, rest) := by
  unfold writeUint
  by_cases h1 : n < 128
  · rw [if_pos h1]
    simp only [List.cons_append, List.nil_append, readUint]
    rw [if_pos h1]
  · rw [if_neg h1]
    by_cases h2 : n < 256
    · rw [if_pos h2]
      simp only [List.cons_append, List.nil_append, readUint]
      norm_num
    · rw [if_neg h2]
      by_cases h3 : n < 65536
      · rw [if_pos h3]
        simp only [be16, List.cons_append, List.nil_append, readUint]
        norm_num
        try omega
      · rw [if_neg h3]
        by_cases h4 : n < 4294967296
        · rw [if_pos h4]
          simp only [be32, List.cons_append, List.nil_append, readUint]
          norm_num
          try omega
        · rw [if_neg h4]
          simp only [be64, be32, List.cons_append, List.nil_append, List.append_assoc,
            readUint]
          norm_num
          try omega

theorem readUintLt_writeUint {n bound : Nat} (h : n < bound)
    (hb : bound ≤ 18446744073709551616) (rest : List Nat) :
    readUintLt bound (writeUint n ++ rest) = .ok (n, rest) := by
  unfold readUintLt
  rw [readUint_writeUint (by omega) rest]
  simp [bind, Except.bind, h]

theorem readArrayLen_writeArrayLen {n : Nat} (h : n < 4294967296) (rest : List Nat) :
    readArrayLen (writeArrayLen n ++ rest) = .ok (n, rest) := by
  unfold writeArrayLen
  by_cases h1 : n < 16
  · rw [if_pos h1]
    simp only [List.cons_append, List.nil_append, readArrayLen]
    rw [if_pos (by omega)]
    simp
    try omega
  · rw [if_neg h1]
    by_cases h2 : n < 65536
    · rw [if_pos h2]
      simp only [be16, List.cons_append, List.nil_append, readArrayLen]
      norm_num
      try omega
    · rw [if_neg h2]
      simp only [be32, List.cons_append, List.nil_append, readArrayLen]
      norm_num
      try omega

theorem readStrLen_writeStrLen {n : Nat} (h : n < 4294967296) (rest : List Nat) :
    readStrLen (writeStrLen n ++ rest) = .ok (n, rest) := by
  unfold writeStrLen
  by_cases h1 : n < 32
  · rw [if_pos h1]
    simp only [List.cons_append, List.nil_append, readStrLen]
    rw [if_pos (by omega)]
    simp
    try omega
  · rw [if_neg h1]
    by_cases h2 : n < 256
    · rw [if_pos h2]
      simp only [List.cons_append, List.nil_append, readStrLen]
      norm_num
      try omega
    · rw [if_neg h2]
      by_cases h3 : n < 65536
      · rw [if_pos h3]
        simp only [be16, List.cons_append, List.nil_append, readStrLen]
        norm_num
        try omega
      · rw [if_neg h3]
        simp only [be32, List.cons_append, List.nil_append, readStrLen]
        norm_num
        try omega

theorem readBinLen_writeBinLen {n : Nat} (h : n < 4294967296) (rest : List Nat) :
    readBinLen (writeBinLen n ++ rest) = .ok (n, rest) := by
  unfold writeBinLen
  by_cases h1 : n < 256
  · rw [if_pos h1]
    simp only [List.cons_append, List.nil_append, readBinLen]
    norm_num
  · rw [if_neg h1]
    by_cases h2 : n < 65536
    · rw [if_pos h2]
      simp only [be16, List.cons_append, List.nil_append, readBinLen]
      norm_num
      try omega
    · rw [if_neg h2]
      simp only [be32, List.cons_append, List.nil_append, readBinLen]
      norm_num
      try omega

theorem readU64_writeU64 {n : Nat} (h : n < 18446744073709551616) (rest : List Nat) :
    readU64 (writeU64 n ++ rest) = .ok (n, rest) := by
  simp only [writeU64, be64, be32, List.cons_append, List.nil_append, List.append_assoc,
    readU64]
  norm_num
  try omega

theorem readExact_append {l : List Nat} {n : Nat} (h : l.length = n) (rest : List Nat) :
    readExact n (l ++ rest) = .ok (l, rest) := by
  unfold readExact
  rw [if_pos (by simp [← h])]
  subst h
  simp [List.take_left, List.drop_left]

/-! ## Pool extension order -/

theorem poolLe_refl (p : List Label) : poolLe p p := ⟨[], by simp⟩

theorem poolLe_trans {p q r : List Label} (h1 : poolLe p q) (h2 : poolLe q r) :
    poolLe p r := by
  obtain ⟨t1, rfl⟩ := h1
  obtain ⟨t2, rfl⟩ := h2
  exact ⟨t1 ++ t2, by simp⟩

theorem poolLe_snoc (p : List Label) (l : Label) : poolLe p (p ++ [l]) := ⟨[l], rfl⟩

theorem poolLe_length {p q : List Label} (h : poolLe p q) : p.length ≤ q.length := by
  obtain ⟨t, rfl⟩ := h
  simp

theorem poolLe_get {p q : List Label} (h : poolLe p q) {i : Nat} (hi : i < p.length) :
    q.get? i = p.get? i := by
  obtain ⟨t, rfl⟩ := h
  exact List.get?_append hi

theorem poolLe_get_snoc {p q : List Label} {l : Label} (h : poolLe (p ++ [l]) q) :
    q.get? p.length = some l := by
  obtain ⟨t, rfl⟩ := h
  rw [List.append_assoc, List.get?_append_right (Nat.le_refl _)]
  simp

theorem findIdxQ_eq_some {l : List Label} {x : Label} {i : Nat}
    (h : l.findIdx? (fun y => y == x) = some i) :
    i < l.length ∧ l.get? i = some x := by
  obtain ⟨hlt, hfi⟩ := List.findIdx?_eq_some_iff_findIdx_eq.mp h
  subst hfi
  refine ⟨hlt, ?_⟩
  have h4 := List.findIdx_getElem (p := fun y => y == x) (w := hlt)
  simp only [beq_iff_eq] at h4
  rw [List.get?_eq_getElem?, List.getElem?_eq_getElem hlt, h4]

/-! ## Name pool encoding round trip -/

theorem nameLabelsToMsgpack_poolLe :
    ∀ (ls : DnsName) (pool : List Label), poolLe pool (nameLabelsToMsgpack ls pool).2 := by
  intro ls
  induction ls with
  | nil => intro pool; exact poolLe_refl pool
  | cons l rest ih =>
    intro pool
    simp only [nameLabelsToMsgpack]
    cases hf : pool.findIdx? (fun x => x == l) with
    | some i => exact ih pool
    | none => exact poolLe_trans (poolLe_snoc pool l) (ih (pool ++ [l]))

theorem nameLabelsToMsgpack_wf :
    ∀ (ls : DnsName) (pool : List Label), pool.all labelWF = true → nameWF ls = true →
      (nameLabelsToMsgpack ls pool).2.all labelWF = true := by
  intro ls
  induction ls with
  | nil => intro pool hp _; exact hp
  | cons l rest ih =>
    intro pool hp hn
    simp only [nameWF, List.all_cons, Bool.and_eq_true] at hn
    simp only [nameLabelsToMsgpack]
    cases hf : pool.findIdx? (fun x => x == l) with
    | some i => exact ih pool hp hn.2
    | none =>
      refine ih (pool ++ [l]) ?_ hn.2
      simp only [List.all_append, List.all_cons, Bool.and_eq_true]
      exact ⟨hp, hn.1, by simp⟩

theorem nameLabelsToMsgpack_read :
    ∀ (ls : DnsName) (pool P : List Label),
      poolLe (nameLabelsToMsgpack ls pool).2 P →
      P.length < 18446744073709551616 →
      ∀ rest, readNameLabels (P.map lowerLabel) ls.length
        ((nameLabelsToMsgpack ls pool).1 ++ rest) = .ok (lowerName ls, rest) := by
  intro ls
  induction ls with
  | nil =>
    intro pool P _ _ rest
    simp [nameLabelsToMsgpack, readNameLabels, lowerName]
  | cons l rest ih =>
    intro pool P hle hlen tail
    simp only [nameLabelsToMsgpack] at hle ⊢
    cases hf : pool.findIdx? (fun x => x == l) with
    | some i =>
      rw [hf] at hle
      obtain ⟨hilt, hget⟩ := findIdxQ_eq_some hf
      have hpool : poolLe pool P :=
        poolLe_trans (nameLabelsToMsgpack_poolLe rest pool) hle
      have hiP : i < P.length := by
        have := poolLe_length hpool
        omega
      have hPi : P.get? i = some l := by
        rw [poolLe_get hpool hilt, hget]
      simp only [List.length_cons, readNameLabels, bind, Except.bind, List.append_assoc]
      rw [readUint_writeUint (by omega) _]
      simp only []
      have hmap : (P.map lowerLabel).get? i = some (lowerLabel l) := by
        rw [List.get?_map, hPi]
        rfl
      rw [hmap]
      rw [ih pool P hle hlen tail]
      rfl
    | none =>
      rw [hf] at hle
      have hsub : poolLe (pool ++ [l]) P :=
        poolLe_trans (nameLabelsToMsgpack_poolLe rest (pool ++ [l])) hle
      have hiP : pool.length < P.length := by
        have := poolLe_length hsub
        simp at this
        omega
      have hPi : P.get? pool.length = some l := poolLe_get_snoc hsub
      simp only [List.length_cons, readNameLabels, bind, Except.bind, List.append_assoc]
      rw [readUint_writeUint (by omega) _]
      simp only []
      have hmap : (P.map lowerLabel).get? pool.length = some (lowerLabel l) := by
        rw [List.get?_map, hPi]
        rfl
      rw [hmap]
      rw [ih (pool ++ [l]) P hle hlen tail]
      rfl

theorem nameToMsgpack_spec {n : DnsName} {pool bs pool2}
    (h : nameToMsgpack n pool = .ok (bs, pool2)) :
    poolLe pool pool2 ∧
    (∀ P : List Label, poolLe pool2 P → P.length < 18446744073709551616 →
      ∀ rest, nameFromMsgpack (P.map lowerLabel) (bs ++ rest) = .ok (lowerName n, rest)) := by
  unfold nameToMsgpack at h
  by_cases hlen : n.length < 4294967296
  · rw [if_pos hlen] at h
    simp only [Except.ok.injEq, Prod.mk.injEq] at h
    obtain ⟨hbs, hpool⟩ := h
    subst hbs
    subst hpool
    refine ⟨nameLabelsToMsgpack_poolLe n pool, ?_⟩
    intro P hle hlenP rest
    unfold nameFromMsgpack
    rw [List.append_assoc, readArrayLen_writeArrayLen hlen]
    simp only [bind, Except.bind]
    exact nameLabelsToMsgpack_read n pool P hle hlenP rest
  · rw [if_neg hlen] at h
    exact absurd h (by simp)

theorem nameToMsgpack_wf {n : DnsName} {pool bs pool2}
    (h : nameToMsgpack n pool = .ok (bs, pool2)) (hp : pool.all labelWF = true)
    (hn : nameWF n = true) : pool2.all labelWF = true := by
  unfold nameToMsgpack at h
  by_cases hlen : n.length < 4294967296
  · rw [if_pos hlen] at h
    simp only [Except.ok.injEq, Prod.mk.injEq] at h
    rw [← h.2]
    exact nameLabelsToMsgpack_wf n pool hp hn
  · rw [if_neg hlen] at h
    exact absurd h (by simp)

/-! ## RData and Record round trips through the zone format -/

theorem rdataToMsgpack_spec {rd : RData} {pool : List Label} {bs : List Nat} {pool2 : List Label}
    (h : rdataToMsgpack rd pool = .ok (bs, pool2)) (hwf : rdataWF rd = true) :
    poolLe pool pool2 ∧
    (∀ P : List Label, poolLe pool2 P → P.length < 18446744073709551616 →
      ∀ rest, rdataFromMsgpack (P.map lowerLabel) (bs ++ rest) = .ok (lowerRData rd, rest)) := by
  cases rd with
  | a o =>
    simp only [rdataToMsgpack, Except.ok.injEq, Prod.mk.injEq] at h
    obtain ⟨hbs, hpool⟩ := h
    subst hbs hpool
    simp only [rdataWF, Bool.and_eq_true, beq_iff_eq, List.all_eq_true,
      decide_eq_true_eq] at hwf
    refine ⟨poolLe_refl pool, ?_⟩
    intro P _ _ rest
    unfold rdataFromMsgpack
    rw [List.append_assoc, List.append_assoc, readUint_writeUint (by norm_num)]
    simp only [bind, Except.bind]
    norm_num
    rw [readBinLen_writeBinLen (by norm_num)]
    simp only []
    norm_num
    rw [readExact_append hwf.1]
    rfl
  | aaaa o =>
    simp only [rdataToMsgpack, Except.ok.injEq, Prod.mk.injEq] at h
    obtain ⟨hbs, hpool⟩ := h
    subst hbs hpool
    simp only [rdataWF, Bool.and_eq_true, beq_iff_eq, List.all_eq_true,
      decide_eq_true_eq] at hwf
    refine ⟨poolLe_refl pool, ?_⟩
    intro P _ _ rest
    unfold rdataFromMsgpack
    rw [List.append_assoc, List.append_assoc, readUint_writeUint (by norm_num)]
    simp only [bind, Except.bind]
    norm_num
    rw [readBinLen_writeBinLen (by norm_num)]
    simp only []
    norm_num
    rw [readExact_append hwf.1]
    rfl
  | cname nm =>
    simp only [rdataToMsgpack] at h
    cases hm : nameToMsgpack nm pool with
    | error e =>
      rw [hm] at h
      simp [Except.map] at h
    | ok p =>
      obtain ⟨nbs, npool⟩ := p
      rw [hm] at h
      simp only [Except.map, Except.ok.injEq, Prod.mk.injEq] at h
      obtain ⟨hbs, hpool⟩ := h
      subst hbs hpool
      obtain ⟨hle, hread⟩ := nameToMsgpack_spec hm
      refine ⟨hle, ?_⟩
      intro P hP hlen rest
      unfold rdataFromMsgpack
      rw [List.append_assoc, readUint_writeUint (by norm_num)]
      simp only [bind, Except.bind]
      norm_num
      rw [hread P hP hlen rest]
      rfl
  | ns nm =>
    simp only [rdataToMsgpack] at h
    cases hm : nameToMsgpack nm pool with
    | error e =>
      rw [hm] at h
      simp [Except.map] at h
    | ok p =>
      obtain ⟨nbs, npool⟩ := p
      rw [hm] at h
      simp only [Except.map, Except.ok.injEq, Prod.mk.injEq] at h
      obtain ⟨hbs, hpool⟩ := h
      subst hbs hpool
      obtain ⟨hle, hread⟩ := nameToMsgpack_spec hm
      refine ⟨hle, ?_⟩
      intro P hP hlen rest
      unfold rdataFromMsgpack
      rw [List.append_assoc, readUint_writeUint (by norm_num)]
      simp only [bind, Except.bind]
      norm_num
      rw [hread P hP hlen rest]
      rfl
  | mx pref exch =>
    simp only [rdataToMsgpack] at h
    simp only [rdataWF, Bool.and_eq_true, decide_eq_true_eq] at hwf
    cases hm : nameToMsgpack exch pool with
    | error e =>
      rw [hm] at h
      simp [Except.map] at h
    | ok p =>
      obtain ⟨nbs, npool⟩ := p
      rw [hm] at h
      simp only [Except.map, Except.ok.injEq, Prod.mk.injEq] at h
      obtain ⟨hbs, hpool⟩ := h
      subst hbs hpool
      obtain ⟨hle, hread⟩ := nameToMsgpack_spec hm
      refine ⟨hle, ?_⟩
      intro P hP hlen rest
      unfold rdataFromMsgpack
      rw [List.append_assoc, List.append_assoc, List.append_assoc,
        readUint_writeUint (by norm_num)]
      simp only [bind, Except.bind]
      norm_num
      rw [readArrayLen_writeArrayLen (by norm_num)]
      simp only []
      norm_num
      rw [readUintLt_writeUint hwf.1 (by norm_num)]
      simp only []
      rw [hread P hP hlen rest]
      rfl
  | ptr addr =>
    cases addr with
    | v4 o =>
      simp only [rdataToMsgpack, Except.ok.injEq, Prod.mk.injEq] at h
      obtain ⟨hbs, hpool⟩ := h
      subst hbs hpool
      simp only [rdataWF, Bool.and_eq_true, beq_iff_eq, List.all_eq_true,
        decide_eq_true_eq] at hwf
      refine ⟨poolLe_refl pool, ?_⟩
      intro P _ _ rest
      unfold rdataFromMsgpack
      rw [List.append_assoc, List.append_assoc, readUint_writeUint (by norm_num)]
      simp only [bind, Except.bind]
      norm_num
      rw [readBinLen_writeBinLen (by norm_num)]
      simp only []
      norm_num
      rw [readExact_append hwf.1]
      rfl
    | v6 o =>
      simp only [rdataToMsgpack, Except.ok.injEq, Prod.mk.injEq] at h
      obtain ⟨hbs, hpool⟩ := h
      subst hbs hpool
      simp only [rdataWF, Bool.and_eq_true, beq_iff_eq, List.all_eq_true,
        decide_eq_true_eq] at hwf
      refine ⟨poolLe_refl pool, ?_⟩
      intro P _ _ rest
      unfold rdataFromMsgpack
      rw [List.append_assoc, List.append_assoc, readUint_writeUint (by norm_num)]
      simp only [bind, Except.bind]
      norm_num
      rw [readBinLen_writeBinLen (by norm_num)]
      simp only []
      norm_num
      rw [readExact_append hwf.1]
      rfl
  | srv pr w pt tgt =>
    simp only [rdataToMsgpack] at h
    simp only [rdataWF, Bool.and_eq_true, decide_eq_true_eq] at hwf
    cases hm : nameToMsgpack tgt pool with
    | error e =>
      rw [hm] at h
      simp [Except.map] at h
    | ok p =>
      obtain ⟨nbs, npool⟩ := p
      rw [hm] at h
      simp only [Except.map, Except.ok.injEq, Prod.mk.injEq] at h
      obtain ⟨hbs, hpool⟩ := h
      subst hbs hpool
      obtain ⟨hle, hread⟩ := nameToMsgpack_spec hm
      refine ⟨hle, ?_⟩
      intro P hP hlen rest
      unfold rdataFromMsgpack
      rw [List.append_assoc, List.append_assoc, List.append_assoc, List.append_assoc,
        List.append_assoc, readUint_writeUint (by norm_num)]
      simp only [bind, Except.bind]
      norm_num
      rw [readArrayLen_writeArrayLen (by norm_num)]
      simp only []
      norm_num
      rw [readUintLt_writeUint hwf.1.1.1 (by norm_num)]
      simp only []
      rw [readUintLt_writeUint hwf.1.1.2 (by norm_num)]
      simp only []
      rw [readUintLt_writeUint hwf.1.2 (by norm_num)]
      simp only []
      rw [hread P hP hlen rest]
      rfl
  | txt d =>
    simp only [rdataToMsgpack] at h
    by_cases hd : d.length < 4294967296
    · rw [if_pos hd] at h
      simp only [Except.ok.injEq, Prod.mk.injEq] at h
      obtain ⟨hbs, hpool⟩ := h
      subst hbs hpool
      refine ⟨poolLe_refl pool, ?_⟩
      intro P _ _ rest
      unfold rdataFromMsgpack
      rw [List.append_assoc, List.append_assoc, readUint_writeUint (by norm_num)]
      simp only [bind, Except.bind]
      norm_num
      rw [readStrLen_writeStrLen hd]
      simp only []
      rw [readExact_append rfl]
      rfl
    · rw [if_neg hd] at h
      exact absurd h (by simp)

theorem rdataToMsgpack_wf {rd : RData} {pool : List Label} {bs : List Nat} {pool2 : List Label}
    (h : rdataToMsgpack rd pool = .ok (bs, pool2)) (hp : pool.all labelWF = true)
    (hwf : rdataWF rd = true) : pool2.all labelWF = true := by
  cases rd with
  | a o =>
    simp only [rdataToMsgpack, Except.ok.injEq, Prod.mk.injEq] at h
    rw [← h.2]
    exact hp
  | aaaa o =>
    simp only [rdataToMsgpack, Except.ok.injEq, Prod.mk.injEq] at h
    rw [← h.2]
    exact hp
  | cname nm =>
    simp only [rdataToMsgpack] at h
    cases hm : nameToMsgpack nm pool with
    | error e =>
      rw [hm] at h
      simp [Except.map] at h
    | ok p =>
      obtain ⟨nbs, npool⟩ := p
      rw [hm] at h
      simp only [Except.map, Except.ok.injEq, Prod.mk.injEq] at h
      rw [← h.2]
      exact nameToMsgpack_wf hm hp hwf
  | ns nm =>
    simp only [rdataToMsgpack] at h
    cases hm : nameToMsgpack nm pool with
    | error e =>
      rw [hm] at h
      simp [Except.map] at h
    | ok p =>
      obtain ⟨nbs, npool⟩ := p
      rw [hm] at h
      simp only [Except.map, Except.ok.injEq, Prod.mk.injEq] at h
      rw [← h.2]
      exact nameToMsgpack_wf hm hp hwf
  | mx pref exch =>
    simp only [rdataToMsgpack] at h
    simp only [rdataWF, Bool.and_eq_true, decide_eq_true_eq] at hwf
    cases hm : nameToMsgpack exch pool with
    | error e =>
      rw [hm] at h
      simp [Except.map] at h
    | ok p =>
      obtain ⟨nbs, npool⟩ := p
      rw [hm] at h
      simp only [Except.map, Except.ok.injEq, Prod.mk.injEq] at h
      rw [← h.2]
      exact nameToMsgpack_wf hm hp hwf.2
  | srv pr w pt tgt =>
    simp only [rdataToMsgpack] at h
    simp only [rdataWF, Bool.and_eq_true, decide_eq_true_eq] at hwf
    cases hm : nameToMsgpack tgt pool with
    | error e =>
      rw [hm] at h
      simp [Except.map] at h
    | ok p =>
      obtain ⟨nbs, npool⟩ := p
      rw [hm] at h
      simp only [Except.map, Except.ok.injEq, Prod.mk.injEq] at h
      rw [← h.2]
      exact nameToMsgpack_wf hm hp hwf.2
  | ptr addr =>
    cases addr with
    | v4 o =>
      simp only [rdataToMsgpack, Except.ok.injEq, Prod.mk.injEq] at h
      rw [← h.2]
      exact hp
    | v6 o =>
      simp only [rdataToMsgpack, Except.ok.injEq, Prod.mk.injEq] at h
      rw [← h.2]
      exact hp
  | txt d =>
    simp only [rdataToMsgpack] at h
    by_cases hd : d.length < 4294967296
    · rw [if_pos hd] at h
      simp only [Except.ok.injEq, Prod.mk.injEq] at h
      rw [← h.2]
      exact hp
    · rw [if_neg hd] at h
      exact absurd h (by simp)

theorem recordToMsgpack_spec {r : Record} {pool : List Label} {bs : List Nat}
    {pool2 : List Label} (h : recordToMsgpack r pool = .ok (bs, pool2))
    (hwf : recordWF r = true) :
    poolLe pool pool2 ∧
    (∀ P : List Label, poolLe pool2 P → P.length < 18446744073709551616 →
      ∀ rest, recordFromMsgpack (P.map lowerLabel) (bs ++ rest) = .ok (lowerRecord r, rest)) := by
  simp only [recordWF, Bool.and_eq_true, decide_eq_true_eq] at hwf
  simp only [recordToMsgpack, bind, Except.bind] at h
  cases hm : nameToMsgpack r.name pool with
  | error e =>
    rw [hm] at h
    simp at h
  | ok np =>
    obtain ⟨nbs, npool⟩ := np
    rw [hm] at h
    simp only [] at h
    cases hrd : rdataToMsgpack r.rdata npool with
    | error e =>
      rw [hrd] at h
      simp at h
    | ok rp =>
      obtain ⟨rbs, rpool⟩ := rp
      rw [hrd] at h
      simp only [Except.ok.injEq, Prod.mk.injEq] at h
      obtain ⟨hbs, hpool⟩ := h
      subst hbs hpool
      obtain ⟨hle1, hread1⟩ := nameToMsgpack_spec hm
      obtain ⟨hle2, hread2⟩ := rdataToMsgpack_spec hrd hwf.2
      refine ⟨poolLe_trans hle1 hle2, ?_⟩
      intro P hP hlen rest
      unfold recordFromMsgpack
      rw [List.append_assoc, List.append_assoc, List.append_assoc,
        readArrayLen_writeArrayLen (by norm_num)]
      simp only [bind, Except.bind]
      norm_num
      rw [hread1 P (poolLe_trans hle2 hP) hlen]
      simp only []
      rw [readUintLt_writeUint hwf.1.2 (by norm_num)]
      simp only []
      rw [hread2 P hP hlen rest]
      rfl

theorem recordToMsgpack_wf {r : Record} {pool : List Label} {bs : List Nat}
    {pool2 : List Label} (h : recordToMsgpack r pool = .ok (bs, pool2))
    (hp : pool.all labelWF = true) (hwf : recordWF r = true) :
    pool2.all labelWF = true := by
  simp only [recordWF, Bool.and_eq_true, decide_eq_true_eq] at hwf
  simp only [recordToMsgpack, bind, Except.bind] at h
  cases hm : nameToMsgpack r.name pool with
  | error e =>
    rw [hm] at h
    simp at h
  | ok np =>
    obtain ⟨nbs, npool⟩ := np
    rw [hm] at h
    simp only [] at h
    cases hrd : rdataToMsgpack r.rdata npool with
    | error e =>
      rw [hrd] at h
      simp at h
    | ok rp =>
      obtain ⟨rbs, rpool⟩ := rp
      rw [hrd] at h
      simp only [Except.ok.injEq, Prod.mk.injEq] at h
      rw [← h.2]
      exact rdataToMsgpack_wf hrd (nameToMsgpack_wf hm hp hwf.1.1) hwf.2

theorem recordsToMsgpack_spec :
    ∀ (rs : List Record) (pool : List Label) (bs : List Nat) (pool2 : List Label),
      recordsToMsgpack rs pool = .ok (bs, pool2) → rs.all recordWF = true →
      poolLe pool pool2 ∧
      (∀ P : List Label, poolLe pool2 P → P.length < 18446744073709551616 →
        ∀ rest, readRecordsAux (P.map lowerLabel) rs.length (bs ++ rest) =
          .ok (rs.map lowerRecord, rest)) := by
  intro rs
  induction rs with
  | nil =>
    intro pool bs pool2 h _
    simp only [recordsToMsgpack, Except.ok.injEq, Prod.mk.injEq] at h
    obtain ⟨hbs, hpool⟩ := h
    subst hbs hpool
    exact ⟨poolLe_refl pool, by intro P _ _ rest; simp [readRecordsAux]⟩
  | cons r rs ih =>
    intro pool bs pool2 h hwf
    simp only [List.all_cons, Bool.and_eq_true] at hwf
    simp only [recordsToMsgpack, bind, Except.bind] at h
    cases h1 : recordToMsgpack r pool with
    | error e =>
      rw [h1] at h
      simp at h
    | ok a =>
      obtain ⟨abs, apool⟩ := a
      rw [h1] at h
      simp only [] at h
      cases h2 : recordsToMsgpack rs apool with
      | error e =>
        rw [h2] at h
        simp at h
      | ok b =>
        obtain ⟨bbs, bpool⟩ := b
        rw [h2] at h
        simp only [Except.ok.injEq, Prod.mk.injEq] at h
        obtain ⟨hbs, hpool⟩ := h
        subst hbs hpool
        obtain ⟨hle1, hread1⟩ := recordToMsgpack_spec h1 hwf.1
        obtain ⟨hle2, hread2⟩ := ih apool bbs bpool h2 hwf.2
        refine ⟨poolLe_trans hle1 hle2, ?_⟩
        intro P hP hlen rest
        simp only [List.length_cons, readRecordsAux, bind, Except.bind, List.append_assoc]
        rw [hread1 P (poolLe_trans hle2 hP) hlen]
        simp only []
        rw [hread2 P hP hlen rest]
        rfl

theorem recordsToMsgpack_wf :
    ∀ (rs : List Record) (pool : List Label) (bs : List Nat) (pool2 : List Label),
      recordsToMsgpack rs pool = .ok (bs, pool2) → pool.all labelWF = true →
      rs.all recordWF = true → pool2.all labelWF = true := by
  intro rs
  induction rs with
  | nil =>
    intro pool bs pool2 h hp _
    simp only [recordsToMsgpack, Except.ok.injEq, Prod.mk.injEq] at h
    rw [← h.2]
    exact hp
  | cons r rs ih =>
    intro pool bs pool2 h hp hwf
    simp only [List.all_cons, Bool.and_eq_true] at hwf
    simp only [recordsToMsgpack, bind, Except.bind] at h
    cases h1 : recordToMsgpack r pool with
    | error e =>
      rw [h1] at h
      simp at h
    | ok a =>
      obtain ⟨abs, apool⟩ := a
      rw [h1] at h
      simp only [] at h
      cases h2 : recordsToMsgpack rs apool with
      | error e =>
        rw [h2] at h
        simp at h
      | ok b =>
        obtain ⟨bbs, bpool⟩ := b
        rw [h2] at h
        simp only [Except.ok.injEq, Prod.mk.injEq] at h
        rw [← h.2]
        exact ih apool bbs bpool h2 (recordToMsgpack_wf h1 hp hwf.1) hwf.2

/-! ## The label pool section -/

theorem readPoolLabels_roundtrip :
    ∀ (pool : List Label), pool.all labelWF = true →
      ∀ rest, readPoolLabels pool.length
        ((pool.flatMap fun l => writeStrLen l.length ++ l) ++ rest) =
        .ok (pool.map lowerLabel, rest) := by
  intro pool
  induction pool with
  | nil =>
    intro _ rest
    simp [readPoolLabels]
  | cons l ls ih =>
    intro hwf rest
    simp only [List.all_cons, Bool.and_eq_true, labelWF, decide_eq_true_eq] at hwf
    simp only [List.flatMap_cons, List.length_cons, readPoolLabels, bind, Except.bind,
      List.append_assoc]
    rw [readStrLen_writeStrLen (by omega)]
    simp only []
    rw [readExact_append rfl]
    simp only []
    rw [if_pos (by omega)]
    rw [ih (by simp only [List.all_eq_true] at hwf ⊢; exact hwf.2) rest]
    rfl

theorem writeStrLen_length {n : Nat} (h : n < 256) :
    (writeStrLen n).length = if n < 32 then 1 else 2 := by
  unfold writeStrLen
  by_cases h1 : n < 32
  · rw [if_pos h1, if_pos h1]
    rfl
  · rw [if_neg h1, if_pos h, if_neg h1]
    rfl

theorem writeArrayLen_length (n : Nat) : (writeArrayLen n).length = arrayHeaderLen n := by
  unfold writeArrayLen arrayHeaderLen
  by_cases h1 : n < 16
  · rw [if_pos h1, if_pos h1]
    rfl
  · rw [if_neg h1, if_neg h1]
    by_cases h2 : n < 65536
    · rw [if_pos h2, if_pos h2]
      rfl
    · rw [if_neg h2, if_neg h2]
      rfl

theorem poolBytes_length {pool : List Label} (h : pool.all labelWF = true) :
    (poolBytes pool).length = poolAccounting pool := by
  unfold poolBytes poolAccounting
  rw [List.length_append, writeArrayLen_length]
  congr 1
  induction pool with
  | nil => rfl
  | cons l ls ih =>
    simp only [List.all_cons, Bool.and_eq_true, labelWF, decide_eq_true_eq] at h
    simp only [List.flatMap_cons, List.map_cons, List.length_append, List.sum_cons]
    rw [ih h.2, writeStrLen_length (by omega)]
    by_cases h32 : l.length < 32 <;> simp [h32] <;> omega

theorem sum_le_mul {pool : List Label} {f : Label → Nat} {c : Nat}
    (h : ∀ x ∈ pool, f x ≤ c) : (pool.map f).sum ≤ pool.length * c := by
  induction pool with
  | nil => simp
  | cons l ls ih =>
    simp only [List.map_cons, List.sum_cons, List.length_cons]
    have h1 := h l (List.mem_cons_self l ls)
    have h2 := ih fun x hx => h x (List.mem_cons_of_mem l hx)
    have : (ls.length + 1) * c = ls.length * c + c := by ring
    omega

theorem poolAccounting_bound {pool : List Label} (h : pool.all labelWF = true)
    (hl : pool.length < 4294967296) :
    poolAccounting pool + 9 < 9223372036854775808 := by
  unfold poolAccounting
  have hsum : (pool.map fun l => l.length + if l.length < 32 then 1 else 2).sum ≤
      pool.length * 65 := by
    refine sum_le_mul fun x hx => ?_
    simp only [List.all_eq_true] at h
    have := h x hx
    simp only [labelWF, Bool.and_eq_true, decide_eq_true_eq] at this
    by_cases h32 : x.length < 32 <;> simp [h32] <;> omega
  have hhdr : arrayHeaderLen pool.length ≤ 5 := by
    unfold arrayHeaderLen
    by_cases h1 : pool.length < 16
    · simp [h1]
    · by_cases h2 : pool.length < 65536 <;> simp [h1, h2]
  have hmul : pool.length * 65 ≤ 4294967295 * 65 := Nat.mul_le_mul_right 65 (by omega)
  omega

/-! ## Zone record-map well-formedness projections -/

theorem typeMapWF_records {k : DnsName} :
    ∀ {h : TypeMap}, typeMapWF k h = true →
      ∀ r ∈ h.flatMap Prod.snd, recordWF r = true := by
  intro h
  induction h with
  | nil =>
    intro _ r hr
    simp at hr
  | cons p rest ih =>
    intro hwf r hr
    obtain ⟨t, v⟩ := p
    simp only [typeMapWF, Bool.and_eq_true] at hwf
    simp only [List.flatMap_cons, List.mem_append] at hr
    rcases hr with hr | hr
    · have := hwf.1.1.2
      simp only [List.all_eq_true] at this
      have h2 := this r hr
      simp only [Bool.and_eq_true] at h2
      exact h2.1.1
    · exact ih hwf.2 r hr

theorem recMapWF_records :
    ∀ {m : RecMap}, recMapWF m = true →
      ∀ r ∈ m.flatMap fun p => p.2.flatMap Prod.snd, recordWF r = true := by
  intro m
  induction m with
  | nil =>
    intro _ r hr
    simp at hr
  | cons p rest ih =>
    intro hwf r hr
    obtain ⟨k, h⟩ := p
    simp only [recMapWF, Bool.and_eq_true] at hwf
    simp only [List.flatMap_cons, List.mem_append] at hr
    rcases hr with hr | hr
    · exact typeMapWF_records hwf.1.1.2 r hr
    · exact ih hwf.2 r hr

theorem zoneFlatten_all_recordWF {z : Zone} (h : zoneWF z = true) :
    (zoneFlatten z).all recordWF = true := by
  simp only [zoneWF, Bool.and_eq_true, decide_eq_true_eq] at h
  simp only [zoneFlatten, List.all_eq_true]
  exact fun r hr => recMapWF_records h.2 r hr

/-! ## Lowered records are equal to the originals -/

theorem rdataEq_lower {rd : RData} (h : rdataWF rd = true) :
    rdataEq rd (lowerRData rd) = true := by
  cases rd with
  | a o => simp [rdataEq, lowerRData]
  | aaaa o => simp [rdataEq, lowerRData]
  | cname nm =>
    simp only [rdataWF] at h
    simp [rdataEq, lowerRData, nameEq_symm (nameEq_lowerName h)]
  | ns nm =>
    simp only [rdataWF] at h
    simp [rdataEq, lowerRData, nameEq_symm (nameEq_lowerName h)]
  | mx pref exch =>
    simp only [rdataWF, Bool.and_eq_true] at h
    simp [rdataEq, lowerRData, nameEq_symm (nameEq_lowerName h.2)]
  | srv pr w pt tgt =>
    simp only [rdataWF, Bool.and_eq_true] at h
    simp [rdataEq, lowerRData, nameEq_symm (nameEq_lowerName h.2)]
  | ptr addr => simp [rdataEq, lowerRData]
  | txt d => simp [rdataEq, lowerRData]

theorem recordEq_lower {r : Record} (h : recordWF r = true) :
    recordEq r (lowerRecord r) = true := by
  simp only [recordWF, Bool.and_eq_true, decide_eq_true_eq] at h
  simp [recordEq, lowerRecord, nameEq_symm (nameEq_lowerName h.1.1), rdataEq_lower h.2]

theorem lowerRecord_recordType (r : Record) :
    (lowerRecord r).recordType = r.recordType := by
  cases hrd : r.rdata <;>
    simp [lowerRecord, Record.recordType, lowerRData, RData.recordType, hrd]

theorem lowerRecord_nameEq {r : Record} (h : recordWF r = true) :
    nameEq (lowerRecord r).name r.name = true := by
  simp only [recordWF, Bool.and_eq_true, decide_eq_true_eq] at h
  exact nameEq_lowerName h.1.1

theorem listRecordEq_lower {v : List Record} (h : v.all recordWF = true) :
    listRecordEq v (v.map lowerRecord) = true := by
  induction v with
  | nil => simp [listRecordEq]
  | cons r rest ih =>
    simp only [List.all_cons, Bool.and_eq_true] at h
    have hr := ih h.2
    simp only [listRecordEq, Bool.and_eq_true, List.all_eq_true, beq_iff_eq] at hr ⊢
    simp only [List.map_cons, List.zip_cons_cons, List.length_cons, List.length_map]
    refine ⟨by simp [hr.1], ?_⟩
    intro p hp
    rcases List.mem_cons.mp hp with hp | hp
    · subst hp
      exact recordEq_lower h.1
    · exact hr.2 p hp

/-! ## Rebuilding the record map from the flattened record list -/

theorem typeMapPush_append :
    ∀ (m : TypeMap) (t : Nat) (r : Record), (∀ p ∈ m, p.1 ≠ t) →
      typeMapPush m t r = m ++ [(t, [r])] := by
  intro m
  induction m with
  | nil => intro t r _; rfl
  | cons p rest ih =>
    intro t r hne
    obtain ⟨t', v⟩ := p
    have h1 : t' ≠ t := hne (t', v) (List.mem_cons_self _ _)
    simp only [typeMapPush, List.cons_append, List.append_eq]
    rw [if_neg (by simpa using h1), ih t r fun q hq => hne q (List.mem_cons_of_mem _ hq)]

theorem typeMapPush_into_last :
    ∀ (m : TypeMap) (t : Nat) (v : List Record) (r : Record), (∀ p ∈ m, p.1 ≠ t) →
      typeMapPush (m ++ [(t, v)]) t r = m ++ [(t, v ++ [r])] := by
  intro m
  induction m with
  | nil =>
    intro t v r _
    simp [typeMapPush]
  | cons p rest ih =>
    intro t v r hne
    obtain ⟨t', v'⟩ := p
    have h1 : t' ≠ t := hne (t', v') (List.mem_cons_self _ _)
    simp only [List.cons_append, typeMapPush, List.append_eq]
    rw [if_neg (by simpa using h1), ih t v r fun q hq => hne q (List.mem_cons_of_mem _ hq)]

theorem recMapPush_append :
    ∀ (m : RecMap) (r : Record), (∀ p ∈ m, nameEq p.1 r.name = false) →
      recMapPush m r = m ++ [(r.name, [(r.recordType, [r])])] := by
  intro m
  induction m with
  | nil => intro r _; rfl
  | cons p rest ih =>
    intro r hne
    obtain ⟨k, h⟩ := p
    have h1 : nameEq k r.name = false := hne (k, h) (List.mem_cons_self _ _)
    simp only [recMapPush, List.cons_append, List.append_eq]
    rw [if_neg (by simp [h1]), ih r fun q hq => hne q (List.mem_cons_of_mem _ hq)]

theorem recMapPush_into_last :
    ∀ (m : RecMap) (k : DnsName) (hh : TypeMap) (r : Record),
      (∀ p ∈ m, nameEq p.1 r.name = false) → nameEq k r.name = true →
      recMapPush (m ++ [(k, hh)]) r = m ++ [(k, typeMapPush hh r.recordType r)] := by
  intro m
  induction m with
  | nil =>
    intro k hh r _ hk
    simp [recMapPush, hk]
  | cons p rest ih =>
    intro k hh r hne hk
    obtain ⟨k', h'⟩ := p
    have h1 : nameEq k' r.name = false := hne (k', h') (List.mem_cons_self _ _)
    simp only [List.cons_append, recMapPush, List.append_eq]
    rw [if_neg (by simp [h1]), ih k hh r (fun q hq => hne q (List.mem_cons_of_mem _ hq)) hk]

theorem innerFold_into_last :
    ∀ (rs : List Record) (m : TypeMap) (t : Nat) (v : List Record),
      (∀ p ∈ m, p.1 ≠ t) → (∀ r ∈ rs, r.recordType = t) →
      rs.foldl (fun a r => typeMapPush a r.recordType r) (m ++ [(t, v)]) =
        m ++ [(t, v ++ rs)] := by
  intro rs
  induction rs with
  | nil =>
    intro m t v _ _
    simp
  | cons r rest ih =>
    intro m t v hm hrs
    have ht : r.recordType = t := hrs r (List.mem_cons_self _ _)
    simp only [List.foldl_cons]
    rw [ht, typeMapPush_into_last m t v r hm,
      ih m t (v ++ [r]) hm fun q hq => hrs q (List.mem_cons_of_mem _ hq)]
    simp

theorem outerFold_into_last :
    ∀ (rs : List Record) (m : RecMap) (k0 : DnsName) (hh : TypeMap),
      (∀ p ∈ m, ∀ r ∈ rs, nameEq p.1 r.name = false) →
      (∀ r ∈ rs, nameEq k0 r.name = true) →
      rs.foldl recMapPush (m ++ [(k0, hh)]) =
        m ++ [(k0, rs.foldl (fun a r => typeMapPush a r.recordType r) hh)] := by
  intro rs
  induction rs with
  | nil =>
    intro m k0 hh _ _
    simp
  | cons r rest ih =>
    intro m k0 hh hm hk
    simp only [List.foldl_cons]
    rw [recMapPush_into_last m k0 hh r
      (fun p hp => hm p hp r (List.mem_cons_self _ _))
      (hk r (List.mem_cons_self _ _))]
    exact ih m k0 _ (fun p hp q hq => hm p hp q (List.mem_cons_of_mem _ hq))
      fun q hq => hk q (List.mem_cons_of_mem _ hq)

theorem typeMapEquiv_cons_iff (p q : Nat × List Record) (a b : TypeMap) :
    typeMapEquiv (p :: a) (q :: b) = true ↔
      ((p.1 == q.1 && listRecordEq p.2 q.2) = true ∧ typeMapEquiv a b = true) := by
  simp [typeMapEquiv, Bool.and_eq_true, List.all_eq_true, beq_iff_eq]
  tauto

theorem recMapEquiv_cons_iff (p q : DnsName × TypeMap) (a b : RecMap) :
    recMapEquiv (p :: a) (q :: b) = true ↔
      ((nameEq p.1 q.1 && typeMapEquiv p.2 q.2) = true ∧ recMapEquiv a b = true) := by
  simp [recMapEquiv, Bool.and_eq_true, List.all_eq_true, beq_iff_eq]
  tauto

theorem innerRebuild :
    ∀ (h : TypeMap) (k : DnsName), typeMapWF k h = true →
      ∀ (m0 : TypeMap), (∀ p ∈ m0, ∀ q ∈ h, p.1 ≠ q.1) →
      ∃ h2, ((h.flatMap Prod.snd).map lowerRecord).foldl
          (fun a r => typeMapPush a r.recordType r) m0 = m0 ++ h2 ∧
        typeMapEquiv h h2 = true := by
  intro h
  induction h with
  | nil =>
    intro k _ m0 _
    exact ⟨[], by simp, by simp [typeMapEquiv]⟩
  | cons p h3 ih =>
    intro k hwf m0 hdis
    obtain ⟨t, v⟩ := p
    simp only [typeMapWF, Bool.and_eq_true] at hwf
    obtain ⟨⟨⟨hvne, hv⟩, hdist⟩, hwf3⟩ := hwf
    cases v with
    | nil => simp at hvne
    | cons r0 v0 =>
      have hv' : ∀ r ∈ r0 :: v0,
          recordWF r = true ∧ nameEq r.name k = true ∧ r.recordType = t := by
        intro r hr
        simp only [List.all_eq_true] at hv
        have h1 := hv r hr
        simp only [Bool.and_eq_true, beq_iff_eq] at h1
        exact ⟨h1.1.1, h1.1.2, h1.2⟩
      have hm0t : ∀ p ∈ m0, p.1 ≠ t :=
        fun p hp => hdis p hp (t, r0 :: v0) (List.mem_cons_self _ _)
      have hA : ((r0 :: v0).map lowerRecord).foldl
          (fun a r => typeMapPush a r.recordType r) m0 =
          m0 ++ [(t, (r0 :: v0).map lowerRecord)] := by
        simp only [List.map_cons, List.foldl_cons]
        have ht0 : (lowerRecord r0).recordType = t := by
          rw [lowerRecord_recordType]
          exact (hv' r0 (List.mem_cons_self _ _)).2.2
        rw [ht0, typeMapPush_append m0 t (lowerRecord r0) hm0t]
        rw [innerFold_into_last (v0.map lowerRecord) m0 t [lowerRecord r0] hm0t ?_]
        · simp
        · intro r' hr'
          obtain ⟨r'', hr'', rfl⟩ := List.mem_map.mp hr'
          rw [lowerRecord_recordType]
          exact (hv' r'' (List.mem_cons_of_mem _ hr'')).2.2
      have hdis' : ∀ p ∈ m0 ++ [(t, (r0 :: v0).map lowerRecord)], ∀ q ∈ h3,
          p.1 ≠ q.1 := by
        intro p hp q hq
        rcases List.mem_append.mp hp with hp | hp
        · exact hdis p hp q (List.mem_cons_of_mem _ hq)
        · simp only [List.mem_singleton] at hp
          subst hp
          simp only [List.all_eq_true] at hdist
          have := hdist q hq
          simp only [bne_iff_ne, ne_eq] at this
          exact fun hcontra => this (by rw [← hcontra])
      obtain ⟨h2', heq, hequiv⟩ :=
        ih k hwf3 (m0 ++ [(t, (r0 :: v0).map lowerRecord)]) hdis'
      refine ⟨(t, (r0 :: v0).map lowerRecord) :: h2', ?_, ?_⟩
      · simp only [List.flatMap_cons, List.map_append, List.foldl_append, hA, heq]
        simp
      · rw [typeMapEquiv_cons_iff]
        refine ⟨?_, hequiv⟩
        simp only [Bool.and_eq_true, beq_iff_eq]
        refine ⟨by simp, listRecordEq_lower ?_⟩
        simp only [List.all_eq_true]
        exact fun r hr => (hv' r hr).1

theorem typeMapWF_named (k : DnsName) :
    ∀ (h : TypeMap), typeMapWF k h = true →
      ∀ r ∈ h.flatMap Prod.snd, nameEq r.name k = true := by
  intro h
  induction h with
  | nil =>
    intro _ r hr
    simp at hr
  | cons q h4 ih4 =>
    obtain ⟨t', v'⟩ := q
    intro hwf r hr
    simp only [typeMapWF, Bool.and_eq_true] at hwf
    simp only [List.flatMap_cons, List.mem_append] at hr
    rcases hr with hr | hr
    · have h5 := hwf.1.1.2
      simp only [List.all_eq_true] at h5
      have h6 := h5 r hr
      simp only [Bool.and_eq_true] at h6
      exact h6.1.2
    · exact ih4 hwf.2 r hr

theorem typeMapWF_flat_ne (k : DnsName) :
    ∀ (h : TypeMap), typeMapWF k h = true → h ≠ [] →
      h.flatMap Prod.snd ≠ [] := by
  intro h
  cases h with
  | nil =>
    intro _ hne
    exact absurd rfl hne
  | cons q h4 =>
    obtain ⟨t', v'⟩ := q
    intro hwf _
    simp only [typeMapWF, Bool.and_eq_true] at hwf
    have hne' := hwf.1.1.1
    cases v' with
    | nil => simp at hne'
    | cons a b => simp

theorem outerRebuild :
    ∀ (m : RecMap), recMapWF m = true →
      ∀ (m0 : RecMap), (∀ p ∈ m0, ∀ q ∈ m, nameEq p.1 q.1 = false) →
      ∃ m2, ((m.flatMap fun p => p.2.flatMap Prod.snd).map lowerRecord).foldl recMapPush m0 =
          m0 ++ m2 ∧ recMapEquiv m m2 = true := by
  intro m
  induction m with
  | nil =>
    intro _ m0 _
    exact ⟨[], by simp, by simp [recMapEquiv]⟩
  | cons p m3 ih =>
    intro hwf m0 hdis
    obtain ⟨k, h⟩ := p
    simp only [recMapWF, Bool.and_eq_true] at hwf
    obtain ⟨⟨⟨⟨hkwf, hhne⟩, hhwf⟩, hdist⟩, hwf3⟩ := hwf
    -- every record of the bucket is case-insensitively named `k`, and well formed
    have hrec : ∀ r ∈ h.flatMap Prod.snd,
        recordWF r = true ∧ nameEq r.name k = true :=
      fun r hr => ⟨typeMapWF_records hhwf r hr, typeMapWF_named k h hhwf r hr⟩
    -- the bucket flattens to a nonempty record list
    cases hfl : h.flatMap Prod.snd with
    | nil =>
      exfalso
      refine typeMapWF_flat_ne k h hhwf ?_ hfl
      intro hcon
      subst hcon
      simp at hhne
    | cons r0 rrest =>
      have hr0 := hrec r0 (by rw [hfl]; exact List.mem_cons_self _ _)
      -- Step A: pushing the bucket's records creates exactly one new entry
      have hm0r : ∀ p ∈ m0, ∀ r ∈ h.flatMap Prod.snd,
          nameEq p.1 (lowerRecord r).name = false := by
        intro p hp r hr
        have hk1 := hdis p hp (k, h) (List.mem_cons_self _ _)
        have hk2 := (hrec r hr).2
        have hk3 : nameEq (lowerRecord r).name k = true :=
          nameEq_trans (lowerRecord_nameEq (hrec r hr).1) hk2
        by_contra hcon
        simp only [Bool.not_eq_false] at hcon
        have := nameEq_trans hcon hk3
        rw [this] at hk1
        cases hk1
      have hκ : ∀ r ∈ h.flatMap Prod.snd,
          nameEq (lowerRecord r0).name (lowerRecord r).name = true := by
        intro r hr
        have h1 : nameEq (lowerRecord r0).name k = true :=
          nameEq_trans (lowerRecord_nameEq hr0.1) hr0.2
        have h2 : nameEq (lowerRecord r).name k = true :=
          nameEq_trans (lowerRecord_nameEq (hrec r hr).1) (hrec r hr).2
        exact nameEq_trans h1 (nameEq_symm h2)
      have hA : ((h.flatMap Prod.snd).map lowerRecord).foldl recMapPush m0 =
          m0 ++ [((lowerRecord r0).name,
            ((h.flatMap Prod.snd).map lowerRecord).foldl
              (fun a r => typeMapPush a r.recordType r) [])] := by
        rw [hfl]
        simp only [List.map_cons, List.foldl_cons]
        rw [recMapPush_append m0 (lowerRecord r0)
          (fun p hp => hm0r p hp r0 (by rw [hfl]; exact List.mem_cons_self _ _))]
        rw [outerFold_into_last (rrest.map lowerRecord) m0 (lowerRecord r0).name _ ?_ ?_]
        · rfl
        · intro p hp r' hr'
          obtain ⟨r'', hr'', rfl⟩ := List.mem_map.mp hr'
          exact hm0r p hp r'' (by rw [hfl]; exact List.mem_cons_of_mem _ hr'')
        · intro r' hr'
          obtain ⟨r'', hr'', rfl⟩ := List.mem_map.mp hr'
          exact hκ r'' (by rw [hfl]; exact List.mem_cons_of_mem _ hr'')
      -- the inner fold builds an equivalent inner map
      obtain ⟨h2, hinner, hinnereq⟩ := innerRebuild h k hhwf [] (by simp)
      simp only [List.nil_append] at hinner
      -- Step B: the remaining buckets
      have hdis' : ∀ p ∈ m0 ++ [((lowerRecord r0).name, h2)], ∀ q ∈ m3,
          nameEq p.1 q.1 = false := by
        intro p hp q hq
        rcases List.mem_append.mp hp with hp | hp
        · exact hdis p hp q (List.mem_cons_of_mem _ hq)
        · simp only [List.mem_singleton] at hp
          subst hp
          simp only [List.all_eq_true] at hdist
          have h1 := hdist q hq
          simp only [Bool.not_eq_true'] at h1
          have hk2 : nameEq (lowerRecord r0).name k = true :=
            nameEq_trans (lowerRecord_nameEq hr0.1) hr0.2
          by_contra hcon
          simp only [Bool.not_eq_false] at hcon
          have := nameEq_trans (nameEq_symm hcon) hk2
          rw [this] at h1
          cases h1
      obtain ⟨m2', houter, houtereq⟩ :=
        ih hwf3 (m0 ++ [((lowerRecord r0).name, h2)]) hdis'
      refine ⟨((lowerRecord r0).name, h2) :: m2', ?_, ?_⟩
      · simp only [List.flatMap_cons, List.map_append, List.foldl_append]
        rw [hA, hinner, houter]
        simp
      · rw [recMapEquiv_cons_iff]
        refine ⟨?_, houtereq⟩
        simp only [Bool.and_eq_true]
        refine ⟨?_, hinnereq⟩
        exact nameEq_symm (nameEq_trans (lowerRecord_nameEq hr0.1) hr0.2)

theorem withRecordsAux_eq (o : DnsName) (s : Nat) :
    ∀ (rs : List Record) (m : RecMap),
      rs.foldl Zone.push ⟨o, s, m⟩ = ⟨o, s, rs.foldl recMapPush m⟩ := by
  intro rs
  induction rs with
  | nil => intro m; rfl
  | cons r rest ih =>
    intro m
    simp only [List.foldl_cons]
    exact ih (recMapPush m r)

/-- **C6.** Binary zone write-then-read round trip: every well-formed zone
`z` that `Zone::write_to` serializes successfully is reproduced by
`Zone::read_from` on the produced bytes, up to the derived `PartialEq` for
`Zone` (case-insensitively equal origin and record names — the reader
lowercases the label pool — equal serial, and the same records). -/
theorem claim6_zone_roundtrip (z : Zone) (bytes : List Nat)
    (hwf : zoneWF z = true) (hok : z.writeTo = .ok bytes) :
    ∃ z2, Zone.readFrom bytes = .ok z2 ∧ zoneEquiv z z2 = true := by
  have hz := hwf
  simp only [zoneWF, Bool.and_eq_true, decide_eq_true_eq] at hz
  obtain ⟨⟨horig, hserial⟩, hrm⟩ := hz
  have hall : (zoneFlatten z).all recordWF = true := zoneFlatten_all_recordWF hwf
  unfold Zone.writeTo at hok
  cases hob : nameToMsgpack z.origin [] with
  | error e =>
    rw [hob] at hok
    simp [bind, Except.bind] at hok
  | ok ob =>
    obtain ⟨obs, opool⟩ := ob
    rw [hob] at hok
    simp only [bind, Except.bind] at hok
    by_cases hN : (zoneFlatten z).length < 4294967296
    · rw [if_pos hN] at hok
      cases hrb : recordsToMsgpack (zoneFlatten z) opool with
      | error e =>
        rw [hrb] at hok
        simp [bind, Except.bind] at hok
      | ok rb =>
        obtain ⟨rbs, P⟩ := rb
        rw [hrb] at hok
        simp only [bind, Except.bind] at hok
        by_cases hg : P.length < 4294967296 ∧ P.all (fun l => l.length < 4294967296)
        · rw [if_pos hg] at hok
          simp only [Except.ok.injEq] at hok
          have hopwf : opool.all labelWF = true := nameToMsgpack_wf hob (by simp) horig
          have hPwf : P.all labelWF = true :=
            recordsToMsgpack_wf (zoneFlatten z) opool rbs P hrb hopwf hall
          have hspec := recordsToMsgpack_spec (zoneFlatten z) opool rbs P hrb hall
          have hnspec := nameToMsgpack_spec hob
          have hP64 : P.length < 18446744073709551616 := by omega
          have hpb : (poolBytes P).length = poolAccounting P := poolBytes_length hPwf
          have hw9 : (writeU64 (poolAccounting P + 9)).length = 9 := by
            simp [writeU64, be64, be32]
          have htb : poolAccounting P + 9 < 9223372036854775808 :=
            poolAccounting_bound hPwf hg.1
          have hbytes : bytes = writeArrayLen 5 ++ obs ++ writeUint z.serial ++
              writeArrayLen (zoneFlatten z).length ++ rbs ++ poolBytes P ++
              writeU64 (poolAccounting P + 9) := hok.symm
          have hlen : bytes.length = (writeArrayLen 5).length + obs.length +
              (writeUint z.serial).length + (writeArrayLen (zoneFlatten z).length).length +
              rbs.length + poolAccounting P + 9 := by
            rw [hbytes]
            simp only [List.length_append, hpb, hw9]
          have h9 : 9 ≤ bytes.length := by omega
          have htle : poolAccounting P + 9 ≤ bytes.length := by omega
          have hd9 : bytes.drop (bytes.length - 9) =
              writeU64 (poolAccounting P + 9) := by
            have hl : bytes.length - 9 = (writeArrayLen 5 ++ obs ++ writeUint z.serial ++
                writeArrayLen (zoneFlatten z).length ++ rbs ++ poolBytes P).length := by
              simp only [List.length_append, hpb]
              omega
            rw [hl, hbytes, List.drop_left]
          have hu64 : readU64 (writeU64 (poolAccounting P + 9)) =
              .ok (poolAccounting P + 9, []) := by
            have h1 := readU64_writeU64 (n := poolAccounting P + 9) (by omega) []
            rwa [List.append_nil] at h1
          have hdp : bytes.drop (bytes.length - (poolAccounting P + 9)) =
              poolBytes P ++ writeU64 (poolAccounting P + 9) := by
            have hl : bytes.length - (poolAccounting P + 9) =
                (writeArrayLen 5 ++ obs ++ writeUint z.serial ++
                  writeArrayLen (zoneFlatten z).length ++ rbs).length := by
              simp only [List.length_append]
              omega
            have he : bytes = (writeArrayLen 5 ++ obs ++ writeUint z.serial ++
                writeArrayLen (zoneFlatten z).length ++ rbs) ++
                (poolBytes P ++ writeU64 (poolAccounting P + 9)) := by
              rw [hbytes]
              simp [List.append_assoc]
            rw [hl, he, List.drop_left]
          have hpa : readArrayLen (poolBytes P ++ writeU64 (poolAccounting P + 9)) =
              .ok (P.length, (P.flatMap fun l => writeStrLen l.length ++ l) ++
                writeU64 (poolAccounting P + 9)) := by
            simp only [poolBytes, List.append_assoc]
            exact readArrayLen_writeArrayLen hg.1 _
          have hpool : readPoolLabels P.length
              ((P.flatMap fun l => writeStrLen l.length ++ l) ++
                writeU64 (poolAccounting P + 9)) =
              .ok (P.map lowerLabel, writeU64 (poolAccounting P + 9)) :=
            readPoolLabels_roundtrip P hPwf _
          have hd1 : bytes.drop 1 = obs ++ (writeUint z.serial ++
              (writeArrayLen (zoneFlatten z).length ++ (rbs ++
                (poolBytes P ++ writeU64 (poolAccounting P + 9))))) := by
            have h149 : writeArrayLen 5 = [149] := rfl
            rw [hbytes, h149]
            simp [List.append_assoc]
          have hog : nameFromMsgpack (P.map lowerLabel) (obs ++ (writeUint z.serial ++
              (writeArrayLen (zoneFlatten z).length ++ (rbs ++
                (poolBytes P ++ writeU64 (poolAccounting P + 9)))))) =
              .ok (lowerName z.origin, writeUint z.serial ++
                (writeArrayLen (zoneFlatten z).length ++ (rbs ++
                  (poolBytes P ++ writeU64 (poolAccounting P + 9))))) :=
            hnspec.2 P hspec.1 hP64 _
          have hser : readUintLt 4294967296 (writeUint z.serial ++
              (writeArrayLen (zoneFlatten z).length ++ (rbs ++
                (poolBytes P ++ writeU64 (poolAccounting P + 9))))) =
              .ok (z.serial, writeArrayLen (zoneFlatten z).length ++ (rbs ++
                (poolBytes P ++ writeU64 (poolAccounting P + 9)))) :=
            readUintLt_writeUint hserial (by norm_num) _
          have hrlh : readArrayLen (writeArrayLen (zoneFlatten z).length ++ (rbs ++
              (poolBytes P ++ writeU64 (poolAccounting P + 9)))) =
              .ok ((zoneFlatten z).length, rbs ++
                (poolBytes P ++ writeU64 (poolAccounting P + 9))) :=
            readArrayLen_writeArrayLen hN _
          have hrda : readRecordsAux (P.map lowerLabel) (zoneFlatten z).length
              (rbs ++ (poolBytes P ++ writeU64 (poolAccounting P + 9))) =
              .ok ((zoneFlatten z).map lowerRecord,
                poolBytes P ++ writeU64 (poolAccounting P + 9)) :=
            hspec.2 P (poolLe_refl P) hP64 _
          have ha5 : readArrayLen bytes = .ok (5, obs ++ (writeUint z.serial ++
              (writeArrayLen (zoneFlatten z).length ++ (rbs ++
                (poolBytes P ++ writeU64 (poolAccounting P + 9)))))) := by
            have hb2 : bytes = writeArrayLen 5 ++ (obs ++ (writeUint z.serial ++
                (writeArrayLen (zoneFlatten z).length ++ (rbs ++
                  (poolBytes P ++ writeU64 (poolAccounting P + 9)))))) := by
              rw [hbytes]
              simp [List.append_assoc]
            rw [hb2]
            exact readArrayLen_writeArrayLen (by norm_num) _
          have hread : Zone.readFrom bytes = .ok (Zone.withRecords (lowerName z.origin)
              z.serial ((zoneFlatten z).map lowerRecord)) := by
            unfold Zone.readFrom
            rw [ha5]
            simp only [bind, Except.bind, h9, hd9, hu64, htle, htb, hdp, hpa, hpool,
              hd1, hog, hser, hrlh, hrda, eq_self_iff_true, if_true, ite_true,
              and_self, and_true, true_and]
          refine ⟨_, hread, ?_⟩
          obtain ⟨m2, hfold, hequiv⟩ := outerRebuild z.records hrm []
            (fun p hp => absurd hp (List.not_mem_nil p))
          rw [show Zone.withRecords (lowerName z.origin) z.serial
              ((zoneFlatten z).map lowerRecord) =
              ⟨lowerName z.origin, z.serial,
                ((zoneFlatten z).map lowerRecord).foldl recMapPush []⟩ from
            withRecordsAux_eq (lowerName z.origin) z.serial
              ((zoneFlatten z).map lowerRecord) []]
          have hfl : ((zoneFlatten z).map lowerRecord).foldl recMapPush [] = m2 := by
            simpa [zoneFlatten] using hfold
          rw [hfl]
          simp only [zoneEquiv, Bool.and_eq_true]
          exact ⟨⟨nameEq_symm (nameEq_lowerName horig), by simp⟩, hequiv⟩
        · rw [if_neg hg] at hok
          simp at hok
    · rw [if_neg hN] at hok
      simp at hok

/-- C6 witness: the two-name, two-record zone `rtZone` is well-formed,
serializes to `rtZoneBytes`, and the theorem yields a zone it reads back to,
equal to `rtZone` up to case. -/
theorem claim6_witness :
    zoneWF rtZone = true ∧ rtZone.writeTo = .ok rtZoneBytes ∧
      ∃ z2, Zone.readFrom rtZoneBytes = .ok z2 ∧ zoneEquiv rtZone z2 = true :=
  ⟨by decide, by decide,
    claim6_zone_roundtrip rtZone rtZoneBytes (by decide) (by decide)⟩

/-- **C10 (amended).** In the binary zone format, NS and CNAME rdata are
serialized and deserialized as a single pool-indexed Name; PTR rdata is the
raw 4- or 16-byte address blob of the `IpAddr` the variant stores (exactly
as A and AAAA are), written without touching the label pool and read back
independently of the label pool — not a Name. -/
theorem claim10_binary_rdata_forms (nm : DnsName) (o4 o16 : List Nat)
    (pool : List Label)
    (hnm : nameWF nm = true) (h4 : o4.length = 4) (h16 : o16.length = 16) :
    (∀ bs pool2, nameToMsgpack nm pool = .ok (bs, pool2) →
      rdataToMsgpack (.ns nm) pool = .ok (writeUint 2 ++ bs, pool2) ∧
      rdataToMsgpack (.cname nm) pool = .ok (writeUint 5 ++ bs, pool2) ∧
      ∀ P, poolLe pool2 P → P.length < 18446744073709551616 → ∀ rest,
        rdataFromMsgpack (P.map lowerLabel) (writeUint 2 ++ bs ++ rest) =
          .ok (.ns (lowerName nm), rest) ∧
        rdataFromMsgpack (P.map lowerLabel) (writeUint 5 ++ bs ++ rest) =
          .ok (.cname (lowerName nm), rest)) ∧
    rdataToMsgpack (.ptr (.v4 o4)) pool =
      .ok (writeUint 12 ++ writeBinLen 4 ++ o4, pool) ∧
    rdataToMsgpack (.ptr (.v6 o16)) pool =
      .ok (writeUint 12 ++ writeBinLen 16 ++ o16, pool) ∧
    (∀ labels rest,
      rdataFromMsgpack labels (writeUint 12 ++ writeBinLen 4 ++ o4 ++ rest) =
        .ok (.ptr (.v4 o4), rest)) ∧
    (∀ labels rest,
      rdataFromMsgpack labels (writeUint 12 ++ writeBinLen 16 ++ o16 ++ rest) =
        .ok (.ptr (.v6 o16), rest)) := by
  refine ⟨?_, rfl, rfl, ?_, ?_⟩
  · intro bs pool2 hto
    have htons : rdataToMsgpack (.ns nm) pool = .ok (writeUint 2 ++ bs, pool2) := by
      simp only [rdataToMsgpack, hto, Except.map]
    have htocn : rdataToMsgpack (.cname nm) pool = .ok (writeUint 5 ++ bs, pool2) := by
      simp only [rdataToMsgpack, hto, Except.map]
    refine ⟨htons, htocn, ?_⟩
    intro P hP hP64 rest
    exact ⟨(rdataToMsgpack_spec htons hnm).2 P hP hP64 rest,
      (rdataToMsgpack_spec htocn hnm).2 P hP hP64 rest⟩
  · intro labels rest
    have he : writeUint 12 ++ writeBinLen 4 ++ o4 ++ rest =
        writeUint 12 ++ (writeBinLen 4 ++ (o4 ++ rest)) := by
      simp [List.append_assoc]
    have h1 := readUint_writeUint (n := 12) (by norm_num) (writeBinLen 4 ++ (o4 ++ rest))
    have h2 := readBinLen_writeBinLen (n := 4) (by norm_num) (o4 ++ rest)
    have h3 := readExact_append h4 rest
    rw [he]
    simp [rdataFromMsgpack, h1, h2, h3, bind, Except.bind, Except.map]
  · intro labels rest
    have he : writeUint 12 ++ writeBinLen 16 ++ o16 ++ rest =
        writeUint 12 ++ (writeBinLen 16 ++ (o16 ++ rest)) := by
      simp [List.append_assoc]
    have h1 := readUint_writeUint (n := 12) (by norm_num) (writeBinLen 16 ++ (o16 ++ rest))
    have h2 := readBinLen_writeBinLen (n := 16) (by norm_num) (o16 ++ rest)
    have h3 := readExact_append h16 rest
    rw [he]
    simp [rdataFromMsgpack, h1, h2, h3, bind, Except.bind, Except.map]

/-- C10 witness: the theorem applied to the name `example.invalid`, the IPv4
blob `192.0.2.1` and a 16-byte IPv6 blob over the empty pool; the extracted
conclusion shows the concrete PTR wire form `[12, 196, 4, 192, 0, 2, 1]`. -/
theorem claim10_witness :
    nameWF exampleInvalid = true ∧
    ([192, 0, 2, 1] : List Nat).length = 4 ∧
    ([0, 1, 2, 3, 4, 5, 6, 7, 8, 9, 10, 11, 12, 13, 14, 15] : List Nat).length = 16 ∧
    rdataToMsgpack (.ptr (.v4 [192, 0, 2, 1])) [] =
      .ok (writeUint 12 ++ writeBinLen 4 ++ [192, 0, 2, 1], []) :=
  ⟨by decide, by decide, by decide,
    (claim10_binary_rdata_forms exampleInvalid [192, 0, 2, 1]
      [0, 1, 2, 3, 4, 5, 6, 7, 8, 9, 10, 11, 12, 13, 14, 15] []
      (by decide) (by decide) (by decide)).2.1⟩

/-- C10 counterexample: PTR rdata of `192.0.2.1` serializes to the raw
binary blob `[12, 196, 4, 192, 0, 2, 1]` (type tag 12, Bin8 header, four
address bytes) with the label pool untouched, deserializes back to the
`IpAddr` blob even against an empty label pool, and its payload is not a
msgpack Name at all: `Name::from_msgpack` rejects the Bin8 marker. -/
theorem claim10_counterexample :
    rdataToMsgpack (.ptr (.v4 [192, 0, 2, 1])) [] =
      .ok ([12, 196, 4, 192, 0, 2, 1], []) ∧
    rdataFromMsgpack [] [12, 196, 4, 192, 0, 2, 1] =
      .ok (.ptr (.v4 [192, 0, 2, 1]), []) ∧
    nameFromMsgpack [] [196, 4, 192, 0, 2, 1] = .error .typeMismatch := by
  decide

end Pepbut
